import Mathlib

/-!
Verification development for the local file indexer / fuzzy search utility
(`src/Buscador_Archivos_Local.py`).

The embedding models Python strings as `List Char`, SQLite REAL as `ℚ`,
SQLite INTEGER as `Int`.  The similarity scorer `score_nombre` calls
`difflib.SequenceMatcher(None, query.lower(), name.lower()).ratio()`; the
machinery below embeds that algorithm (CPython's `difflib`), specialized to
`isjunk = None`, so the junk set `bjunk` is empty: the two junk-extension
loops of `find_longest_match` never run and are omitted, and the non-junk
extension loops have a vacuously true junk condition.  The `autojunk`
popularity purge (active when `len(b) >= 200`) is modelled by `popularB`.
-/

namespace Buscador

/-- Character comparison `a[i] == b[j]` of the Python code; `false` when an
index is out of range (the Python loops only compare in-range indices). -/
def chEq (a b : List Char) (i j : Nat) : Bool :=
  match a[i]?, b[j]? with
  | some x, some y => x == y
  | _, _ => false

/-- The `autojunk` "popular" test of `SequenceMatcher.__chain_b`: when
`len(b) >= 200`, an element occurring more than `len(b) // 100 + 1` times in
`b` is dropped from `b2j`. -/
def popularB (b : List Char) (c : Char) : Bool :=
  decide (200 ≤ b.length) && decide (b.length / 100 + 1 < b.count c)

/-- `j ∈ b2j[a[i]]` of `find_longest_match`: `a[i] == b[j]` and `b[j]` is not
purged as popular.  `false` when an index is out of range. -/
def matchAt (a b : List Char) (pop : Char → Bool) (i j : Nat) : Bool :=
  match a[i]?, b[j]? with
  | some x, some y => x == y && !(pop y)
  | _, _ => false

/-- The value `j2len[j]` computed for row `i` of the main loop of
`find_longest_match`: `newj2len[j] = j2len.get(j-1, 0) + 1`, where the entry
for `j-1` from the previous row exists exactly when `(i-1, j-1)` was an
in-window match.  The imperative dictionaries memoize exactly this
recurrence. -/
def runLen (a b : List Char) (pop : Char → Bool) (alo blo : Nat) : Nat → Nat → Nat
  | 0, _ => 1
  | i + 1, j =>
    (if alo < i + 1 ∧ blo < j ∧ matchAt a b pop i (j - 1) = true then
      runLen a b pop alo blo i (j - 1) else 0) + 1

/-- Inner iteration space of row `i`: the indices `j` of `b2j[a[i]]` that
survive `if j < blo: continue` / `if j >= bhi: break`, in ascending order. -/
def candRow (a b : List Char) (pop : Char → Bool) (blo bhi i : Nat) : List (Nat × Nat) :=
  ((List.range' blo (bhi - blo)).filter (fun j => matchAt a b pop i j)).map (fun j => (i, j))

/-- Full iteration order of the nested loops of `find_longest_match`:
`i` ascending over `range(alo, ahi)`, then `j` ascending. -/
def candList (a b : List Char) (pop : Char → Bool) (alo ahi blo bhi : Nat) : List (Nat × Nat) :=
  (List.range' alo (ahi - alo)).flatMap (candRow a b pop blo bhi)

/-- One update of `besti, bestj, bestsize`: replaced exactly when `k > bestsize`. -/
def flmStep (a b : List Char) (pop : Char → Bool) (alo blo : Nat)
    (st : Nat × Nat × Nat) (ij : Nat × Nat) : Nat × Nat × Nat :=
  let k := runLen a b pop alo blo ij.1 ij.2
  if st.2.2 < k then (ij.1 + 1 - k, ij.2 + 1 - k, k) else st

/-- The first extension loop of `find_longest_match`:
`while besti > alo and bestj > blo and a[besti-1] == b[bestj-1]`
(the `not isbjunk(...)` conjunct is vacuous: the junk set is empty). -/
def extendBack (a b : List Char) (alo blo : Nat) : Nat → Nat → Nat → Nat × Nat × Nat
  | 0, j, k => (0, j, k)
  | i + 1, j, k =>
    if alo < i + 1 ∧ blo < j ∧ chEq a b i (j - 1) = true then
      extendBack a b alo blo i (j - 1) (k + 1)
    else (i + 1, j, k)

/-- The second extension loop:
`while besti+bestsize < ahi and bestj+bestsize < bhi and a[..] == b[..]`.
The counter `rem` is `ahi - (besti + bestsize)`, so `rem > 0` is the guard
`besti + bestsize < ahi`. -/
def extendFwdK (a b : List Char) (bhi i j : Nat) : Nat → Nat → Nat
  | k, 0 => k
  | k, rem + 1 =>
    if j + k < bhi ∧ chEq a b (i + k) (j + k) = true then
      extendFwdK a b bhi i j (k + 1) rem
    else k

/-- `SequenceMatcher.find_longest_match(alo, ahi, blo, bhi)` (junk set empty):
the main dynamic-programming loop followed by the two live extension loops. -/
def findLongestMatch (a b : List Char) (pop : Char → Bool) (alo ahi blo bhi : Nat) :
    Nat × Nat × Nat :=
  let st0 := (candList a b pop alo ahi blo bhi).foldl (flmStep a b pop alo blo) (alo, blo, 0)
  let st1 := extendBack a b alo blo st0.1 st0.2.1 st0.2.2
  (st1.1, st1.2.1, extendFwdK a b bhi st1.1 st1.2.1 st1.2.2 (ahi - (st1.1 + st1.2.2)))

/-- `runLen` is at least `1` (the `+ 1` of `newj2len[j] = ... + 1`). -/
def runLen_pos (a b : List Char) (pop : Char → Bool) (alo blo : Nat) :
    ∀ i j, 1 ≤ runLen a b pop alo blo i j
  | 0, _ => le_refl 1
  | i + 1, j => by unfold runLen; omega

/-- A run ending at column `i` stays inside the window on the left:
`runLen i j + alo ≤ i + 1`. -/
def runLen_le_left (a b : List Char) (pop : Char → Bool) (alo blo : Nat) :
    ∀ i j, alo ≤ i → runLen a b pop alo blo i j + alo ≤ i + 1
  | 0, j, h => by unfold runLen; omega
  | i + 1, j, h => by
    unfold runLen
    split
    · next hc => have ih := runLen_le_left a b pop alo blo i (j - 1) (by omega); omega
    · omega

/-- A run ending at row `j` stays inside the window on the left:
`runLen i j + blo ≤ j + 1`. -/
def runLen_le_right (a b : List Char) (pop : Char → Bool) (alo blo : Nat) :
    ∀ i j, blo ≤ j → runLen a b pop alo blo i j + blo ≤ j + 1
  | 0, j, h => by unfold runLen; omega
  | i + 1, j, h => by
    unfold runLen
    split
    · next hc =>
      have ih := runLen_le_right a b pop alo blo i (j - 1) (by omega)
      omega
    · omega

/-- Every pair iterated by the nested loops lies in the window. -/
def candList_bounds (a b : List Char) (pop : Char → Bool) (alo ahi blo bhi : Nat) :
    ∀ p ∈ candList a b pop alo ahi blo bhi,
      alo ≤ p.1 ∧ p.1 < ahi ∧ blo ≤ p.2 ∧ p.2 < bhi := by
  intro p hp
  simp only [candList, candRow, List.mem_flatMap, List.mem_map, List.mem_filter,
    List.mem_range'_1] at hp
  obtain ⟨i, hi, j, ⟨hj, _⟩, rfl⟩ := hp
  omega

/-- Invariant carried by the `besti, bestj, bestsize` fold. -/
def FlmInv (alo blo ahi bhi : Nat) (st : Nat × Nat × Nat) : Prop :=
  alo ≤ st.1 ∧ blo ≤ st.2.1 ∧ (st.2.2 = 0 → st.1 = alo ∧ st.2.1 = blo) ∧
    (1 ≤ st.2.2 → st.1 + st.2.2 ≤ ahi ∧ st.2.1 + st.2.2 ≤ bhi)

/-- One `flmStep` preserves the fold invariant (for in-window pairs). -/
def flmStep_inv (a b : List Char) (pop : Char → Bool) (alo ahi blo bhi : Nat)
    (st : Nat × Nat × Nat) (p : Nat × Nat)
    (hp : alo ≤ p.1 ∧ p.1 < ahi ∧ blo ≤ p.2 ∧ p.2 < bhi)
    (hst : FlmInv alo blo ahi bhi st) :
    FlmInv alo blo ahi bhi (flmStep a b pop alo blo st p) := by
  simp only [flmStep]
  split
  · next hlt =>
    have h1 := runLen_le_left a b pop alo blo p.1 p.2 (by omega)
    have h2 := runLen_le_right a b pop alo blo p.1 p.2 (by omega)
    have h3 := runLen_pos a b pop alo blo p.1 p.2
    unfold FlmInv
    dsimp only
    exact ⟨by omega, by omega, by omega, fun _ => ⟨by omega, by omega⟩⟩
  · exact hst

/-- Invariant of the `besti, bestj, bestsize` fold: the best match stays inside
the window, and while `bestsize = 0` the state is still `(alo, blo, 0)`. -/
def foldl_flm_inv (a b : List Char) (pop : Char → Bool) (alo ahi blo bhi : Nat) :
    ∀ (l : List (Nat × Nat)) (st : Nat × Nat × Nat),
      (∀ p ∈ l, alo ≤ p.1 ∧ p.1 < ahi ∧ blo ≤ p.2 ∧ p.2 < bhi) →
      FlmInv alo blo ahi bhi st →
      FlmInv alo blo ahi bhi (l.foldl (flmStep a b pop alo blo) st)
  | [], _, _, hst => hst
  | p :: t, st, hl, hst => by
    rw [List.foldl_cons]
    exact foldl_flm_inv a b pop alo ahi blo bhi t _
      (fun q hq => hl q (List.mem_cons_of_mem p hq))
      (flmStep_inv a b pop alo ahi blo bhi st p (hl p (List.mem_cons_self p t)) hst)

/-- `extendBack` keeps both endpoints of the match fixed while growing it:
the sums `besti + bestsize` and `bestj + bestsize` are preserved. -/
def extendBack_inv (a b : List Char) (alo blo : Nat) :
    ∀ i j k, alo ≤ i → blo ≤ j →
      alo ≤ (extendBack a b alo blo i j k).1 ∧
      blo ≤ (extendBack a b alo blo i j k).2.1 ∧
      k ≤ (extendBack a b alo blo i j k).2.2 ∧
      (extendBack a b alo blo i j k).1 + (extendBack a b alo blo i j k).2.2 = i + k ∧
      (extendBack a b alo blo i j k).2.1 + (extendBack a b alo blo i j k).2.2 = j + k
  | 0, j, k, hi, hj => ⟨hi, hj, le_refl k, rfl, rfl⟩
  | i + 1, j, k, hi, hj => by
    rw [extendBack]
    split
    · next hc =>
      obtain ⟨u1, u2, u3, u4, u5⟩ :=
        extendBack_inv a b alo blo i (j - 1) (k + 1) (by omega) (by omega)
      exact ⟨u1, u2, by omega, by omega, by omega⟩
    · exact ⟨hi, hj, le_refl k, rfl, rfl⟩

/-- `extendBack` does not move from the initial state `(alo, blo, 0)`. -/
def extendBack_init (a b : List Char) (alo blo : Nat) :
    extendBack a b alo blo alo blo 0 = (alo, blo, 0) := by
  cases alo with
  | zero => rfl
  | succ n =>
    unfold extendBack
    rw [if_neg]
    intro hc
    exact absurd hc.1 (lt_irrefl _)

/-- Bounds for the forward extension: the size can only grow, grows by at most
`rem`, and when it grows the guard `bestj + bestsize < bhi` was checked. -/
def extendFwdK_bounds (a b : List Char) (bhi i j : Nat) :
    ∀ rem k, k ≤ extendFwdK a b bhi i j k rem ∧
      extendFwdK a b bhi i j k rem ≤ k + rem ∧
      (k < extendFwdK a b bhi i j k rem → j + extendFwdK a b bhi i j k rem ≤ bhi)
  | 0, k => by
    rw [extendFwdK]
    exact ⟨le_refl k, by omega, fun h => absurd h (lt_irrefl k)⟩
  | rem + 1, k => by
    rw [extendFwdK]
    split
    · next hc =>
      have ih := extendFwdK_bounds a b bhi i j rem (k + 1)
      refine ⟨by omega, by omega, fun h => ?_⟩
      rcases Nat.lt_or_ge (k + 1) (extendFwdK a b bhi i j (k + 1) rem) with h2 | h2
      · exact ih.2.2 h2
      · have heq : extendFwdK a b bhi i j (k + 1) rem = k + 1 := le_antisymm h2 ih.1
        omega
    · exact ⟨le_refl k, by omega, fun h => absurd h (lt_irrefl k)⟩

/-- The match returned by `find_longest_match` lies inside the requested
window (whenever it is non-empty). -/
def flm_bounds (a b : List Char) (pop : Char → Bool) (alo ahi blo bhi : Nat) :
    alo ≤ (findLongestMatch a b pop alo ahi blo bhi).1 ∧
    blo ≤ (findLongestMatch a b pop alo ahi blo bhi).2.1 ∧
    (1 ≤ (findLongestMatch a b pop alo ahi blo bhi).2.2 →
      (findLongestMatch a b pop alo ahi blo bhi).1 +
        (findLongestMatch a b pop alo ahi blo bhi).2.2 ≤ ahi ∧
      (findLongestMatch a b pop alo ahi blo bhi).2.1 +
        (findLongestMatch a b pop alo ahi blo bhi).2.2 ≤ bhi) := by
  simp only [findLongestMatch]
  have hinv := foldl_flm_inv a b pop alo ahi blo bhi
    (candList a b pop alo ahi blo bhi) (alo, blo, 0)
    (candList_bounds a b pop alo ahi blo bhi)
    ⟨le_refl alo, le_refl blo, fun _ => ⟨rfl, rfl⟩, fun h => absurd h (Nat.not_succ_le_zero 0)⟩
  set st0 := (candList a b pop alo ahi blo bhi).foldl (flmStep a b pop alo blo) (alo, blo, 0)
    with hst0
  obtain ⟨i1, i2, i3, i4⟩ := hinv
  by_cases hz : st0.2.2 = 0
  · obtain ⟨e1, e2⟩ := i3 hz
    have hb : extendBack a b alo blo st0.1 st0.2.1 st0.2.2 = (alo, blo, 0) := by
      rw [e1, e2, hz]; exact extendBack_init a b alo blo
    rw [hb]
    dsimp only
    have hf := extendFwdK_bounds a b bhi alo blo (ahi - (alo + 0)) 0
    refine ⟨le_refl alo, le_refl blo, fun h => ⟨by omega, ?_⟩⟩
    exact hf.2.2 (by omega)
  · have hk1 : 1 ≤ st0.2.2 := by omega
    obtain ⟨s1, s2⟩ := i4 hk1
    have hb := extendBack_inv a b alo blo st0.1 st0.2.1 st0.2.2 i1 i2
    set st1 := extendBack a b alo blo st0.1 st0.2.1 st0.2.2 with hst1
    obtain ⟨u1, u2, u3, u4, u5⟩ := hb
    have hf := extendFwdK_bounds a b bhi st1.1 st1.2.1 (ahi - (st1.1 + st1.2.2)) st1.2.2
    refine ⟨u1, u2, fun _ => ⟨by omega, ?_⟩⟩
    rcases Nat.lt_or_ge st1.2.2 (extendFwdK a b bhi st1.1 st1.2.1 st1.2.2
      (ahi - (st1.1 + st1.2.2))) with h2 | h2
    · exact hf.2.2 h2
    · have : extendFwdK a b bhi st1.1 st1.2.1 st1.2.2 (ahi - (st1.1 + st1.2.2)) = st1.2.2 :=
        le_antisymm h2 hf.1
      omega

/-- Total of the sizes of all matching blocks found by
`get_matching_blocks` over the window `[alo, ahi) × [blo, bhi)`: the longest
match is found, counted, and the two remaining corners are processed
recursively (the queue of the Python code).  The final merge pass of
`get_matching_blocks` only merges adjacent blocks and adds a zero-size sentinel,
neither of which changes this total, which is the `matches` used by
`ratio`. -/
def matchesTotalAux (a b : List Char) (pop : Char → Bool) (alo ahi blo bhi : Nat) : Nat :=
  match hm : findLongestMatch a b pop alo ahi blo bhi with
  | (i, j, k) =>
    if hk : k = 0 then 0
    else
      (if h1 : alo < i ∧ blo < j then matchesTotalAux a b pop alo i blo j else 0) +
      (if h2 : i + k < ahi ∧ j + k < bhi then
        matchesTotalAux a b pop (i + k) ahi (j + k) bhi else 0) + k
termination_by ahi - alo
decreasing_by
  · have hb := flm_bounds a b pop alo ahi blo bhi
    rw [hm] at hb
    simp only at hb
    omega
  · have hb := flm_bounds a b pop alo ahi blo bhi
    rw [hm] at hb
    simp only at hb
    omega

/-- `matches = sum(triple[-1] for triple in self.get_matching_blocks())`. -/
def matchesTotal (a b : List Char) : Nat :=
  matchesTotalAux a b (popularB b) 0 a.length 0 b.length

/-- `difflib._calculate_ratio`: `2.0 * matches / length`, and `1.0` when both
sequences are empty. -/
def calculateRatio (m len : Nat) : ℚ :=
  if len ≠ 0 then 2 * (m : ℚ) / (len : ℚ) else 1

/-- `SequenceMatcher.ratio()`. -/
def ratio (a b : List Char) : ℚ :=
  calculateRatio (matchesTotal a b) (a.length + b.length)

/-- `score_nombre(query, name)` of the source:
`SequenceMatcher(None, query.lower(), name.lower()).ratio()`.
Python `str.lower` is modelled by mapping `Char.toLower`. -/
def score_nombre (query name : List Char) : ℚ :=
  ratio (query.map Char.toLower) (name.map Char.toLower)

/-- The matched total over a window is at most the extent of the window on
either side: matching blocks are disjoint in both sequences. -/
def matchesTotalAux_le (a b : List Char) (pop : Char → Bool) :
    ∀ n alo ahi blo bhi, ahi - alo < n →
      matchesTotalAux a b pop alo ahi blo bhi ≤ ahi - alo ∧
      matchesTotalAux a b pop alo ahi blo bhi ≤ bhi - blo
  | 0, _, _, _, _, h => absurd h (by omega)
  | n + 1, alo, ahi, blo, bhi, h => by
    rw [matchesTotalAux.eq_def]
    split
    next i j k hm =>
      by_cases hk : k = 0
      · rw [dif_pos hk]
        omega
      · rw [dif_neg hk]
        have hb := flm_bounds a b pop alo ahi blo bhi
        rw [hm] at hb
        dsimp only at hb
        obtain ⟨b1, b2, b3⟩ := hb
        obtain ⟨b4, b5⟩ := b3 (by omega)
        by_cases h1 : alo < i ∧ blo < j
        · rw [dif_pos h1]
          have ih1 := matchesTotalAux_le a b pop n alo i blo j (by omega)
          by_cases h2 : i + k < ahi ∧ j + k < bhi
          · rw [dif_pos h2]
            have ih2 := matchesTotalAux_le a b pop n (i + k) ahi (j + k) bhi (by omega)
            omega
          · rw [dif_neg h2]
            omega
        · rw [dif_neg h1]
          by_cases h2 : i + k < ahi ∧ j + k < bhi
          · rw [dif_pos h2]
            have ih2 := matchesTotalAux_le a b pop n (i + k) ahi (j + k) bhi (by omega)
            omega
          · rw [dif_neg h2]
            omega

/-- `matches` never exceeds the length of either sequence. -/
def matchesTotal_le (a b : List Char) :
    matchesTotal a b ≤ a.length ∧ matchesTotal a b ≤ b.length := by
  have h := matchesTotalAux_le a b (popularB b) (a.length + 1) 0 a.length 0 b.length (by omega)
  simpa using h

/-- The ratio is non-negative. -/
def ratio_nonneg (a b : List Char) : 0 ≤ ratio a b := by
  unfold ratio calculateRatio
  split
  · positivity
  · norm_num

/-- The ratio is at most `1`. -/
def ratio_le_one (a b : List Char) : ratio a b ≤ 1 := by
  unfold ratio calculateRatio
  split
  · next h =>
    have hm := matchesTotal_le a b
    rw [div_le_one (by exact_mod_cast Nat.pos_of_ne_zero h)]
    have : 2 * matchesTotal a b ≤ a.length + b.length := by omega
    exact_mod_cast this
  · exact le_refl 1

/-- Unfolded characterization of `matchAt`. -/
def matchAt_iff (a b : List Char) (pop : Char → Bool) (i j : Nat) :
    matchAt a b pop i j = true ↔
      ∃ x, a[i]? = some x ∧ b[j]? = some x ∧ pop x = false := by
  unfold matchAt
  cases ha : a[i]? with
  | none =>
    cases hb : b[j]? with
    | none => show (false = true) ↔ _; simp
    | some y => show (false = true) ↔ _; simp
  | some x =>
    cases hb : b[j]? with
    | none => show (false = true) ↔ _; simp
    | some y =>
      show (x == y && !pop y) = true ↔ _
      simp only [Bool.and_eq_true, beq_iff_eq, Bool.not_eq_true']
      constructor
      · rintro ⟨rfl, hp⟩
        exact ⟨x, rfl, rfl, hp⟩
      · rintro ⟨z, hz1, hz2, hp⟩
        cases hz1
        cases hz2
        exact ⟨rfl, hp⟩

/-- If `(i, j)` matches with `a` against itself, so does the diagonal `(i, i)`. -/
def matchAt_left_of (a : List Char) (pop : Char → Bool) {i j : Nat}
    (h : matchAt a a pop i j = true) : matchAt a a pop i i = true := by
  obtain ⟨x, h1, h2, h3⟩ := (matchAt_iff a a pop i j).mp h
  exact (matchAt_iff a a pop i i).mpr ⟨x, h1, h1, h3⟩

/-- If `(i, j)` matches with `a` against itself, so does the diagonal `(j, j)`. -/
def matchAt_right_of (a : List Char) (pop : Char → Bool) {i j : Nat}
    (h : matchAt a a pop i j = true) : matchAt a a pop j j = true := by
  obtain ⟨x, h1, h2, h3⟩ := (matchAt_iff a a pop i j).mp h
  exact (matchAt_iff a a pop j j).mpr ⟨x, h2, h2, h3⟩

/-- Against itself, a run ending at `(i, j)` is no longer than the diagonal
run ending at `(j, j)`. -/
def runLen_le_diag_right (a : List Char) (pop : Char → Bool) :
    ∀ i j, runLen a a pop 0 0 i j ≤ runLen a a pop 0 0 j j
  | 0, j => runLen_pos a a pop 0 0 j j
  | i + 1, 0 => by
    have h1 : runLen a a pop 0 0 (i + 1) 0 = 1 := by
      show (if 0 < i + 1 ∧ 0 < 0 ∧ matchAt a a pop i (0 - 1) = true then
        runLen a a pop 0 0 i (0 - 1) else 0) + 1 = 1
      rw [if_neg (by omega)]
    rw [h1]
    exact runLen_pos a a pop 0 0 0 0
  | i + 1, j + 1 => by
    by_cases hc : 0 < i + 1 ∧ 0 < j + 1 ∧ matchAt a a pop i j = true
    · have hL : runLen a a pop 0 0 (i + 1) (j + 1) = runLen a a pop 0 0 i j + 1 := by
        show (if 0 < i + 1 ∧ 0 < j + 1 ∧ matchAt a a pop i j = true then
          runLen a a pop 0 0 i j else 0) + 1 = _
        rw [if_pos hc]
      have hR : runLen a a pop 0 0 (j + 1) (j + 1) = runLen a a pop 0 0 j j + 1 := by
        show (if 0 < j + 1 ∧ 0 < j + 1 ∧ matchAt a a pop j j = true then
          runLen a a pop 0 0 j j else 0) + 1 = _
        rw [if_pos ⟨by omega, by omega, matchAt_right_of a pop hc.2.2⟩]
      rw [hL, hR]
      exact Nat.succ_le_succ (runLen_le_diag_right a pop i j)
    · have hL : runLen a a pop 0 0 (i + 1) (j + 1) = 1 := by
        show (if 0 < i + 1 ∧ 0 < j + 1 ∧ matchAt a a pop i j = true then
          runLen a a pop 0 0 i j else 0) + 1 = 1
        rw [if_neg hc]
      rw [hL]
      exact runLen_pos a a pop 0 0 (j + 1) (j + 1)

/-- Against itself, a run ending at `(i, j)` is no longer than the diagonal
run ending at `(i, i)`. -/
def runLen_le_diag_left (a : List Char) (pop : Char → Bool) :
    ∀ i j, runLen a a pop 0 0 i j ≤ runLen a a pop 0 0 i i
  | 0, _ => le_refl 1
  | i + 1, j => by
    have hR : runLen a a pop 0 0 (i + 1) (i + 1) =
        (if 0 < i + 1 ∧ 0 < i + 1 ∧ matchAt a a pop i i = true then
          runLen a a pop 0 0 i i else 0) + 1 := rfl
    by_cases hc : 0 < i + 1 ∧ 0 < j ∧ matchAt a a pop i (j - 1) = true
    · have hL : runLen a a pop 0 0 (i + 1) j = runLen a a pop 0 0 i (j - 1) + 1 := by
        show (if 0 < i + 1 ∧ 0 < j ∧ matchAt a a pop i (j - 1) = true then
          runLen a a pop 0 0 i (j - 1) else 0) + 1 = _
        rw [if_pos hc]
      rw [hL, hR, if_pos ⟨by omega, by omega, matchAt_left_of a pop hc.2.2⟩]
      exact Nat.succ_le_succ (runLen_le_diag_left a pop i (j - 1))
    · have hL : runLen a a pop 0 0 (i + 1) j = 1 := by
        show (if 0 < i + 1 ∧ 0 < j ∧ matchAt a a pop i (j - 1) = true then
          runLen a a pop 0 0 i (j - 1) else 0) + 1 = 1
        rw [if_neg hc]
      rw [hL]
      exact runLen_pos a a pop 0 0 (i + 1) (i + 1)

/-- Invariant showing the best state stays on the diagonal when the two
sequences are the same: the best match is diagonal and dominates every
diagonal run of an already-processed row. -/
def DiagInv (a : List Char) (pop : Char → Bool) (bound : Nat) (st : Nat × Nat × Nat) : Prop :=
  st.1 = st.2.1 ∧
    ∀ t, t < bound → matchAt a a pop t t = true → runLen a a pop 0 0 t t ≤ st.2.2

/-- A fold step never updates when the candidate run does not beat the best. -/
def fold_no_update (a : List Char) (pop : Char → Bool) (st : Nat × Nat × Nat) :
    ∀ l : List (Nat × Nat), (∀ p ∈ l, runLen a a pop 0 0 p.1 p.2 ≤ st.2.2) →
      l.foldl (flmStep a a pop 0 0) st = st
  | [], _ => rfl
  | p :: t, h => by
    rw [List.foldl_cons]
    have hs : flmStep a a pop 0 0 st p = st := by
      simp only [flmStep]
      rw [if_neg]
      have := h p (List.mem_cons_self p t)
      omega
    rw [hs]
    exact fold_no_update a pop st t (fun q hq => h q (List.mem_cons_of_mem p hq))

/-- Processing one row of candidates preserves the diagonal invariant. -/
def row_preserves_diag (a : List Char) (pop : Char → Bool) (n i : Nat) (hn : n = a.length)
    (st : Nat × Nat × Nat) (hst : DiagInv a pop i st) :
    DiagInv a pop (i + 1) ((candRow a a pop 0 n i).foldl (flmStep a a pop 0 0) st) := by
  by_cases hii : matchAt a a pop i i = true
  · -- the row contains the diagonal pair (i, i); split the row around it
    have hilen : i < n := by
      obtain ⟨x, h1, _, _⟩ := (matchAt_iff a a pop i i).mp hii
      obtain ⟨hlt, _⟩ := List.getElem?_eq_some.mp h1
      omega
    have hsplit : List.range' 0 n = List.range' 0 i ++ i :: List.range' (i + 1) (n - i - 1) := by
      have h2 : List.range' i (n - i) = i :: List.range' (i + 1) (n - i - 1) := by
        have h3 : n - i = (n - i - 1) + 1 := by omega
        calc List.range' i (n - i) = List.range' i ((n - i - 1) + 1) := congrArg (List.range' i) h3
          _ = i :: List.range' (i + 1) (n - i - 1) := List.range'_succ i (n - i - 1) 1
      have h4 : (n - i) + i = n := by omega
      calc List.range' 0 n = List.range' 0 ((n - i) + i) := congrArg (List.range' 0) h4.symm
        _ = List.range' 0 i ++ List.range' (0 + i) (n - i) := (List.range'_append_1 0 i (n - i)).symm
        _ = List.range' 0 i ++ i :: List.range' (i + 1) (n - i - 1) := by rw [Nat.zero_add, h2]
    have hrow : candRow a a pop 0 n i =
        ((List.range' 0 i).filter (fun j => matchAt a a pop i j)).map (fun j => (i, j)) ++
        (i, i) :: ((List.range' (i + 1) (n - i - 1)).filter
          (fun j => matchAt a a pop i j)).map (fun j => (i, j)) := by
      unfold candRow
      rw [Nat.sub_zero, hsplit, List.filter_append, List.filter_cons, if_pos hii,
        List.map_append, List.map_cons]
    rw [hrow, List.foldl_append, List.foldl_cons]
    have hlow : (((List.range' 0 i).filter (fun j => matchAt a a pop i j)).map
        (fun j => (i, j))).foldl (flmStep a a pop 0 0) st = st := by
      apply fold_no_update
      intro p hp
      simp only [List.mem_map, List.mem_filter, List.mem_range'_1] at hp
      obtain ⟨j, ⟨⟨_, hj⟩, hmj⟩, rfl⟩ := hp
      calc runLen a a pop 0 0 i j ≤ runLen a a pop 0 0 j j := runLen_le_diag_right a pop i j
        _ ≤ st.2.2 := hst.2 j (by omega) (matchAt_right_of a pop hmj)
    rw [hlow]
    -- the diagonal step
    have hdiag : DiagInv a pop (i + 1) (flmStep a a pop 0 0 st (i, i)) ∧
        runLen a a pop 0 0 i i ≤ (flmStep a a pop 0 0 st (i, i)).2.2 := by
      simp only [flmStep]
      split
      · next hlt =>
        refine ⟨⟨rfl, fun t ht hmt => ?_⟩, le_refl _⟩
        rcases Nat.lt_or_ge t i with h2 | h2
        · have := hst.2 t h2 hmt
          dsimp only
          omega
        · have ht2 : t = i := by omega
          subst ht2
          exact le_refl _
      · next hlt =>
        refine ⟨⟨hst.1, fun t ht hmt => ?_⟩, by omega⟩
        rcases Nat.lt_or_ge t i with h2 | h2
        · exact hst.2 t h2 hmt
        · have ht2 : t = i := by omega
          subst ht2
          omega
    have hhigh : (((List.range' (i + 1) (n - i - 1)).filter (fun j => matchAt a a pop i j)).map
        (fun j => (i, j))).foldl (flmStep a a pop 0 0) (flmStep a a pop 0 0 st (i, i)) =
        flmStep a a pop 0 0 st (i, i) := by
      apply fold_no_update
      intro p hp
      simp only [List.mem_map, List.mem_filter, List.mem_range'_1] at hp
      obtain ⟨j, ⟨_, hmj⟩, rfl⟩ := hp
      calc runLen a a pop 0 0 i j ≤ runLen a a pop 0 0 i i := runLen_le_diag_left a pop i j
        _ ≤ (flmStep a a pop 0 0 st (i, i)).2.2 := hdiag.2
    rw [hhigh]
    exact hdiag.1
  · -- no candidate at all in row i
    have hrow : candRow a a pop 0 n i = [] := by
      unfold candRow
      rw [List.filter_eq_nil_iff.mpr, List.map_nil]
      intro j _ hmj
      exact hii (matchAt_left_of a pop hmj)
    rw [hrow]
    exact ⟨hst.1, fun t ht hmt => by
      rcases Nat.lt_or_ge t i with h2 | h2
      · exact hst.2 t h2 hmt
      · have ht2 : t = i := by omega
        subst ht2
        exact absurd hmt hii⟩

/-- Folding all rows keeps the state diagonal and dominant. -/
def foldRows_diag (a : List Char) (pop : Char → Bool) (n : Nat) (hn : n = a.length) :
    ∀ m (st : Nat × Nat × Nat), DiagInv a pop 0 st →
      DiagInv a pop m
        (((List.range' 0 m).flatMap (candRow a a pop 0 n)).foldl (flmStep a a pop 0 0) st)
  | 0, _, hst => hst
  | m + 1, st, hst => by
    rw [List.range'_1_concat, Nat.zero_add, List.flatMap_append, List.foldl_append]
    have hsing : List.flatMap [m] (candRow a a pop 0 n) = candRow a a pop 0 n m := by
      simp [List.flatMap]
    rw [hsing]
    exact row_preserves_diag a pop n m hn _ (foldRows_diag a pop n hn m st hst)

/-- After the main loop on `a` against itself, the best state is diagonal. -/
def fold_diag (a : List Char) (pop : Char → Bool) :
    DiagInv a pop a.length
      ((candList a a pop 0 a.length 0 a.length).foldl (flmStep a a pop 0 0) (0, 0, 0)) := by
  have h0 : DiagInv a pop 0 (0, 0, 0) := ⟨rfl, fun t ht _ => absurd ht (by omega)⟩
  have h := foldRows_diag a pop a.length rfl a.length (0, 0, 0) h0
  unfold candList
  rw [Nat.sub_zero]
  exact h

/-- `a[i] == a[i]` holds for in-range `i`. -/
def chEq_self (a : List Char) {i : Nat} (h : i < a.length) : chEq a a i i = true := by
  unfold chEq
  rw [List.getElem?_eq_getElem h]
  show (a[i] == a[i]) = true
  simp

/-- On the diagonal, the backward extension runs all the way to the start. -/
def extendBack_diag (a : List Char) : ∀ i k, i + k ≤ a.length →
    extendBack a a 0 0 i i k = (0, 0, i + k)
  | 0, k, _ => by rw [extendBack, Nat.zero_add]
  | i + 1, k, h => by
    have hc : 0 < i + 1 ∧ 0 < i + 1 ∧ chEq a a i (i + 1 - 1) = true :=
      ⟨by omega, by omega, chEq_self a (by omega)⟩
    rw [extendBack, if_pos hc, show i + 1 - 1 = i from rfl,
      extendBack_diag a i (k + 1) (by omega)]
    have h2 : i + (k + 1) = i + 1 + k := by omega
    rw [h2]

/-- On the diagonal, the forward extension runs all the way to the end. -/
def extendFwdK_diag (a : List Char) : ∀ rem s, s + rem = a.length →
    extendFwdK a a a.length 0 0 s rem = a.length
  | 0, s, h => by rw [extendFwdK]; omega
  | rem + 1, s, h => by
    have hc : 0 + s < a.length ∧ chEq a a (0 + s) (0 + s) = true := by
      refine ⟨by omega, ?_⟩
      rw [Nat.zero_add]
      exact chEq_self a (by omega)
    rw [extendFwdK, if_pos hc]
    exact extendFwdK_diag a rem (s + 1) (by omega)

/-- `find_longest_match` of a string against itself over the full windows
returns the whole string. -/
def flm_self (a : List Char) :
    findLongestMatch a a (popularB a) 0 a.length 0 a.length = (0, 0, a.length) := by
  simp only [findLongestMatch]
  set st0 := (candList a a (popularB a) 0 a.length 0 a.length).foldl
    (flmStep a a (popularB a) 0 0) (0, 0, 0) with hst0
  have hdiag := fold_diag a (popularB a)
  rw [← hst0] at hdiag
  have hinv := foldl_flm_inv a a (popularB a) 0 a.length 0 a.length
    (candList a a (popularB a) 0 a.length 0 a.length) (0, 0, 0)
    (candList_bounds a a (popularB a) 0 a.length 0 a.length)
    ⟨le_refl 0, le_refl 0, fun _ => ⟨rfl, rfl⟩, fun h => absurd h (Nat.not_succ_le_zero 0)⟩
  rw [← hst0] at hinv
  have hb : st0.1 + st0.2.2 ≤ a.length := by
    obtain ⟨i1, i2, i3, i4⟩ := hinv
    by_cases hz : st0.2.2 = 0
    · have := (i3 hz).1
      omega
    · exact (i4 (by omega)).1
  rw [← hdiag.1, extendBack_diag a st0.1 st0.2.2 hb]
  dsimp only
  rw [extendFwdK_diag a (a.length - (0 + (st0.1 + st0.2.2))) (st0.1 + st0.2.2) (by omega)]

/-- The total matched characters of a string against itself is its length. -/
def matchesTotal_self (a : List Char) : matchesTotal a a = a.length := by
  unfold matchesTotal
  rw [matchesTotalAux.eq_def]
  split
  next i j k hm =>
    rw [flm_self] at hm
    obtain ⟨hi, hj, hk⟩ : (0 : Nat) = i ∧ (0 : Nat) = j ∧ a.length = k := by
      simpa [Prod.ext_iff] using hm
    subst hi
    subst hj
    subst hk
    by_cases hz : a.length = 0
    · rw [dif_pos hz]
      omega
    · rw [dif_neg hz, dif_neg (by omega : ¬((0:Nat) < 0 ∧ (0:Nat) < 0)),
        dif_neg (by omega : ¬(0 + a.length < a.length ∧ 0 + a.length < a.length))]
      omega

/-- `ratio` of a string against itself is `1` (also for the empty string,
by `_calculate_ratio`). -/
def ratio_self (a : List Char) : ratio a a = 1 := by
  unfold ratio calculateRatio
  rw [matchesTotal_self]
  split
  · next h =>
    have hl0 : 0 < a.length := by omega
    have hcast : (↑(a.length + a.length) : ℚ) = 2 * (a.length : ℚ) := by push_cast; ring
    have hpos : (0 : ℚ) < (a.length : ℚ) := by exact_mod_cast hl0
    rw [hcast, div_self (ne_of_gt (by linarith))]
  · rfl

/-- `Char.ofNat` round-trips on valid codepoints. -/
def char_toNat_ofNat_valid (m : Nat) (h : m.isValidChar) : (Char.ofNat m).toNat = m := by
  unfold Char.ofNat
  rw [dif_pos h]
  rfl

/-- `Char.toLower` is idempotent. -/
def toLower_toLower (c : Char) : c.toLower.toLower = c.toLower := by
  by_cases h : c.toNat ≥ 65 ∧ c.toNat ≤ 90
  · have h1 : c.toLower = Char.ofNat (c.toNat + 32) := by
      simp only [Char.toLower]
      rw [if_pos h]
    have ht : (Char.ofNat (c.toNat + 32)).toNat = c.toNat + 32 :=
      char_toNat_ofNat_valid _ (Or.inl (by omega))
    rw [h1]
    simp only [Char.toLower]
    rw [ht, if_neg (by omega : ¬(c.toNat + 32 ≥ 65 ∧ c.toNat + 32 ≤ 90))]
  · have h1 : c.toLower = c := by
      simp only [Char.toLower]
      rw [if_neg h]
    rw [h1, h1]

/-- Lower-casing after upper-casing gives the lower-cased character. -/
def toLower_toUpper (c : Char) : c.toUpper.toLower = c.toLower := by
  by_cases h : c.toNat ≥ 97 ∧ c.toNat ≤ 122
  · have h1 : c.toUpper = Char.ofNat (c.toNat - 32) := by
      simp only [Char.toUpper]
      rw [if_pos h]
    have ht : (Char.ofNat (c.toNat - 32)).toNat = c.toNat - 32 :=
      char_toNat_ofNat_valid _ (Or.inl (by omega))
    have h2 : c.toLower = c := by
      simp only [Char.toLower]
      rw [if_neg (by omega : ¬(c.toNat ≥ 65 ∧ c.toNat ≤ 90))]
    rw [h1, h2]
    simp only [Char.toLower]
    rw [ht, if_pos (by omega : c.toNat - 32 ≥ 65 ∧ c.toNat - 32 ≤ 90)]
    have h3 : c.toNat - 32 + 32 = c.toNat := by omega
    rw [h3, Char.ofNat_toNat]
  · have h1 : c.toUpper = c := by
      simp only [Char.toUpper]
      rw [if_neg h]
    rw [h1]

/-- Lower-casing a list twice is the same as once. -/
def map_toLower_idem (l : List Char) :
    (l.map Char.toLower).map Char.toLower = l.map Char.toLower := by
  rw [List.map_map]
  exact List.map_congr_left (fun c _ => toLower_toLower c)

/-- Lower-casing an upper-cased list is lower-casing the list. -/
def map_toLower_toUpper (l : List Char) :
    (l.map Char.toUpper).map Char.toLower = l.map Char.toLower := by
  rw [List.map_map]
  exact List.map_congr_left (fun c _ => toLower_toUpper c)

/-- `score_nombre` of a string against itself is `1`. -/
def score_nombre_self (x : List Char) : score_nombre x x = 1 := ratio_self _

/-- `score_nombre` is non-negative. -/
def score_nombre_nonneg (q c : List Char) : 0 ≤ score_nombre q c := ratio_nonneg _ _

/-- `score_nombre` is at most `1`. -/
def score_nombre_le_one (q c : List Char) : score_nombre q c ≤ 1 := ratio_le_one _ _

/-- Lower-casing either argument does not change the score. -/
def score_nombre_lower (q c : List Char) :
    score_nombre (q.map Char.toLower) c = score_nombre q c ∧
    score_nombre q (c.map Char.toLower) = score_nombre q c :=
  ⟨by unfold score_nombre; rw [map_toLower_idem],
   by unfold score_nombre; rw [map_toLower_idem]⟩

/-- Upper-casing either argument does not change the score. -/
def score_nombre_upper (q c : List Char) :
    score_nombre (q.map Char.toUpper) c = score_nombre q c ∧
    score_nombre q (c.map Char.toUpper) = score_nombre q c :=
  ⟨by unfold score_nombre; rw [map_toLower_toUpper],
   by unfold score_nombre; rw [map_toLower_toUpper]⟩

/-! ## Store, filter engine and search orchestrator

A row of the `archivos` table: `(id, path, name, ext, size, mtime)`.  The
`id INTEGER PRIMARY KEY` rowid is selected and immediately discarded by every
consumer (`aplica_filtros`, `buscar`, `show`), so it is omitted from the
model.  `size` is SQLite INTEGER (`Int`), `mtime` SQLite REAL (`ℚ`). -/

structure FileRow where
  path : List Char
  name : List Char
  ext : List Char
  size : Int
  mtime : ℚ
deriving DecidableEq, Repr

/-- The two tables of `index_archivos.db`:
`archivos(path UNIQUE, ...)` and `tags(file_path, tag, UNIQUE(file_path, tag))`. -/
structure Store where
  archivos : List FileRow
  tags : List (List Char × List Char)
deriving DecidableEq, Repr

/-- `INSERT OR REPLACE INTO archivos ...`: the UNIQUE constraint on `path`
makes SQLite delete any existing row with the same path and insert the new
row (at a fresh, largest rowid, hence at the end in scan order). -/
def upsert (rows : List FileRow) (r : FileRow) : List FileRow :=
  (rows.filter (fun x => decide (x.path ≠ r.path))) ++ [r]

/-- `INSERT OR IGNORE INTO tags ...`: a pair violating `UNIQUE(file_path, tag)`
is ignored, otherwise it is appended. -/
def tags_insert (T : List (List Char × List Char)) (p t : List Char) :
    List (List Char × List Char) :=
  if (p, t) ∈ T then T else T ++ [(p, t)]

/-- `DELETE FROM tags WHERE file_path = ? AND tag = ?`. -/
def tags_delete (T : List (List Char × List Char)) (p t : List Char) :
    List (List Char × List Char) :=
  T.filter (fun r => decide (¬(r.1 = p ∧ r.2 = t)))

/-- `tag_add(path, tag, conn)` (the printed confirmation is elided). -/
def tag_add (s : Store) (p t : List Char) : Store :=
  ⟨s.archivos, tags_insert s.tags p t⟩

/-- `tag_remove(path, tag, conn)`. -/
def tag_remove (s : Store) (p t : List Char) : Store :=
  ⟨s.archivos, tags_delete s.tags p t⟩

/-- `get_tags_for(path, conn)`: `SELECT tag FROM tags WHERE file_path = ?`,
in table order. -/
def get_tags_for (T : List (List Char × List Char)) (path : List Char) : List (List Char) :=
  (T.filter (fun r => decide (r.1 = path))).map (fun r => r.2)

/-- One file met during `os.walk`: its path, `p.name`, and
`p.suffix.lower().lstrip('.')` (as computed by `pathlib` from the path), plus
the result of `p.stat()` — `none` models `stat` raising, in which case the
file is skipped (`except Exception: continue`). -/
structure WalkEntry where
  path : List Char
  name : List Char
  ext : List Char
  stat : Option (Int × ℚ)

/-- The filesystem as seen by `indexar`: `Path.exists` and the regular files
reachable by the recursive `os.walk`, in traversal order. -/
structure FS where
  pathExists : List Char → Bool
  walk : List Char → List WalkEntry

/-- Outcome of an `index` run: the "Ruta no existe" message, or the
"Indexación completada" message with the count of indexed files. -/
inductive IndexOutcome where
  | pathNotFound
  | completed (n : Nat)
deriving DecidableEq, Repr

/-- Body of the walk loop of `indexar`: skip a file whose `stat` raised,
otherwise upsert its row and bump `contador`. -/
def indexStep (acc : Store × Nat) (e : WalkEntry) : Store × Nat :=
  match e.stat with
  | none => acc
  | some sm =>
    (⟨upsert acc.1.archivos ⟨e.path, e.name, e.ext, sm.1, sm.2⟩, acc.1.tags⟩, acc.2 + 1)

/-- `indexar(ruta, conn)`: abort with a message when the root does not exist,
otherwise upsert one row per file whose `stat` succeeded and count them. -/
def indexar (fs : FS) (root : List Char) (s : Store) : Store × IndexOutcome :=
  if !fs.pathExists root then (s, IndexOutcome.pathNotFound)
  else
    let r := (fs.walk root).foldl indexStep (s, 0)
    (r.1, IndexOutcome.completed r.2)

/-- Store states reachable from a fresh database through the mutating
commands (`index`, `tag-add`, `tag-remove`; `search`, `list-tags` and `show`
are read-only). -/
inductive Reachable : Store → Prop where
  | init : Reachable ⟨[], []⟩
  | index (fs : FS) (root : List Char) {s : Store} :
      Reachable s → Reachable (indexar fs root s).1
  | tagAdd (p t : List Char) {s : Store} :
      Reachable s → Reachable (tag_add s p t)
  | tagRemove (p t : List Char) {s : Store} :
      Reachable s → Reachable (tag_remove s p t)

/-- The `argparse` namespace consumed by `aplica_filtros` and `buscar`.
Optional flags default to `None`; `limit` defaults to `20`, `threshold` to
`0.4`.  (`argparse` would accept a negative `--limit`; the model restricts
`limit` to naturals, where Python's `lst[:limit]` agrees with `List.take`.) -/
structure SearchArgs where
  ext : Option (List Char)
  tag : Option (List Char)
  min_size : Option Int
  max_size : Option Int
  after : Option (List Char)
  before : Option (List Char)
  limit : Nat
  threshold : ℚ

/-- Python truthiness of an optional string: `None` and `""` are falsy. -/
def strTruthy : Option (List Char) → Bool
  | some s => !s.isEmpty
  | none => false

/-- Python truthiness of an optional int: `None` and `0` are falsy. -/
def intTruthy : Option Int → Bool
  | some n => n != 0
  | none => false

/-- `datetime.fromisoformat(s).timestamp()` abstracted: the embedding is
parameterized by a parse function; `none` models the call raising (an
unparsable bound). -/
def afterParsed (parse : List Char → Option ℚ) (s : List Char) : ℚ :=
  (parse s).getD 0

/-- The `--before` test `mtime > t` where `except` sets `t = float('inf')`:
with `t = inf` the comparison is never true, so an unparsable bound never
rejects. -/
def beforeRejects (parse : List Char → Option ℚ) (s : List Char) (mtime : ℚ) : Bool :=
  match parse s with
  | some t => decide (t < mtime)
  | none => false

/-- `aplica_filtros(row, args, conn)`: the chain of early `return False`
checks.  `args.ext.lstrip('.').lower()` is `dropWhile '.'` then lower-case;
an unparsable `--after` bound falls back to `t = 0` (the `except` branch). -/
def aplica_filtros (parse : List Char → Option ℚ) (T : List (List Char × List Char))
    (args : SearchArgs) (row : FileRow) : Bool :=
  if strTruthy args.ext ∧
      row.ext ≠ ((args.ext.getD []).dropWhile (fun ch => ch == '.')).map Char.toLower then false
  else if strTruthy args.tag ∧ (args.tag.getD []) ∉ get_tags_for T row.path then false
  else if intTruthy args.min_size ∧ row.size < args.min_size.getD 0 then false
  else if intTruthy args.max_size ∧ args.max_size.getD 0 < row.size then false
  else if strTruthy args.after ∧ row.mtime < afterParsed parse (args.after.getD []) then false
  else if strTruthy args.before ∧
      beforeRejects parse (args.before.getD []) row.mtime = true then false
  else true

/-- `args.threshold or 0.4`: a Python float is falsy exactly when it is `0.0`,
so an explicit threshold of `0.0` is replaced by the default `0.4`
(modelled by the exact rational `2/5`). -/
def effectiveThreshold (t : ℚ) : ℚ :=
  if t = 0 then 0.4 else t

/-- The composite score of `buscar` for one record:
`max(sc_name, sc_path, sc_tag)` with `sc_tag = 1.0 if query in tags else 0.0`
(exact, case-sensitive membership). -/
def compositeScore (T : List (List Char × List Char)) (query : List Char)
    (row : FileRow) : ℚ :=
  max (max (score_nombre query row.name) (score_nombre query row.path))
    (if query ∈ get_tags_for T row.path then 1 else 0)

/-- One entry of `resultados`:
`(score, path, name, ext, size, mtime, tags)`. -/
structure SearchHit where
  score : ℚ
  path : List Char
  name : List Char
  ext : List Char
  size : Int
  mtime : ℚ
  tags : List (List Char)
deriving DecidableEq, Repr

/-- The tuple appended to `resultados` for an admitted row. -/
def toHit (T : List (List Char × List Char)) (query : List Char) (row : FileRow) : SearchHit :=
  ⟨compositeScore T query row, row.path, row.name, row.ext, row.size, row.mtime,
    get_tags_for T row.path⟩

/-- `buscar(query, args, conn)`: keep the rows admitted by `aplica_filtros`
whose composite score reaches `args.threshold or 0.4`, sort by score
descending (`list.sort` is stable; so is `mergeSort`), and truncate to
`args.limit`.  Printing is elided; the returned list is what is printed. -/
def buscar (parse : List Char → Option ℚ) (query : List Char) (args : SearchArgs)
    (rows : List FileRow) (T : List (List Char × List Char)) : List SearchHit :=
  let resultados := (rows.filter (fun row =>
    aplica_filtros parse T args row &&
      decide (effectiveThreshold args.threshold ≤ compositeScore T query row))).map
    (toHit T query)
  (resultados.mergeSort (fun x y => decide (y.score ≤ x.score))).take args.limit

/-- `list_tags(conn)`: `SELECT tag, COUNT(*) FROM tags GROUP BY tag
ORDER BY COUNT(*) DESC`.  The GROUP BY (no index on `tags`) materializes the
groups in ascending tag order; the ORDER BY temp b-tree then emits rows by
count descending, with rows of equal count coming out in the *reverse* of
their insertion order (verified against SQLite: equal-count tags are
returned in descending tag order).  SQL itself leaves the tie order
unspecified.  Modelled as a stable descending-by-count sort of the reversed
ascending group list. -/
def list_tags (T : List (List Char × List Char)) : List (List Char × Nat) :=
  ((((T.map (fun r => r.2)).dedup.mergeSort (fun x y => decide (x ≤ y))).map
    (fun t => (t, T.countP (fun r => decide (r.2 = t))))).reverse).mergeSort
    (fun x y => decide (y.2 ≤ x.2))

/-! ## Invariants of the persistent store -/

/-- `upsert` preserves distinctness of paths. -/
def upsert_nodup (rows : List FileRow) (r : FileRow)
    (h : (rows.map (fun x => x.path)).Nodup) :
    ((upsert rows r).map (fun x => x.path)).Nodup := by
  unfold upsert
  rw [List.map_append]
  apply List.Nodup.append
  · exact h.sublist ((List.filter_sublist rows).map (fun x => x.path))
  · simp
  · intro x hx hmem
    simp only [List.map_cons, List.map_nil, List.mem_singleton] at hmem
    subst hmem
    simp only [List.mem_map, List.mem_filter, decide_eq_true_eq] at hx
    obtain ⟨row, ⟨_, hne⟩, heq⟩ := hx
    exact hne heq

/-- The indexing fold preserves distinctness of paths. -/
def indexFold_nodup : ∀ (l : List WalkEntry) (acc : Store × Nat),
    (acc.1.archivos.map (fun x => x.path)).Nodup →
    (((l.foldl indexStep acc).1).archivos.map (fun x => x.path)).Nodup
  | [], _, h => h
  | e :: t, acc, h => by
    rw [List.foldl_cons]
    apply indexFold_nodup t
    unfold indexStep
    match e.stat with
    | none => exact h
    | some sm => exact upsert_nodup acc.1.archivos _ h

/-- The indexing fold never touches the `tags` table. -/
def indexFold_tags : ∀ (l : List WalkEntry) (acc : Store × Nat),
    ((l.foldl indexStep acc).1).tags = acc.1.tags
  | [], _ => rfl
  | e :: t, acc => by
    rw [List.foldl_cons]
    rw [indexFold_tags t (indexStep acc e)]
    unfold indexStep
    match e.stat with
    | none => rfl
    | some sm => rfl

/-- `tags_insert` preserves distinctness of `(path, tag)` pairs. -/
def tags_insert_nodup (T : List (List Char × List Char)) (p t : List Char)
    (h : T.Nodup) : (tags_insert T p t).Nodup := by
  unfold tags_insert
  split
  · exact h
  · next hmem =>
    apply List.Nodup.append h (by simp)
    intro x hx hm
    simp only [List.mem_singleton] at hm
    subst hm
    exact hmem hx

/-- Every reachable store has pairwise-distinct paths in `archivos` and
pairwise-distinct `(path, tag)` pairs in `tags` (the two UNIQUE
constraints). -/
def reachable_invariants : ∀ s : Store, Reachable s →
    (s.archivos.map (fun x => x.path)).Nodup ∧ s.tags.Nodup := by
  intro s h
  induction h with
  | init => exact ⟨List.nodup_nil, List.nodup_nil⟩
  | index fs root hr ih =>
    unfold indexar
    split
    · exact ih
    · exact ⟨indexFold_nodup _ _ ih.1, by rw [indexFold_tags]; exact ih.2⟩
  | tagAdd p t hr ih => exact ⟨ih.1, tags_insert_nodup _ p t ih.2⟩
  | tagRemove p t hr ih =>
    exact ⟨ih.1, ih.2.sublist (List.filter_sublist _)⟩

/-- With distinct paths, at most one row matches any given path. -/
def nodup_filter_path_le_one : ∀ (l : List FileRow),
    (l.map (fun x => x.path)).Nodup →
    ∀ p, (l.filter (fun r => decide (r.path = p))).length ≤ 1
  | [], _, p => by simp
  | x :: t, h, p => by
    rw [List.map_cons, List.nodup_cons] at h
    rw [List.filter_cons]
    split
    · next hx =>
      simp only [decide_eq_true_eq] at hx
      have ht : t.filter (fun r => decide (r.path = p)) = [] := by
        rw [List.filter_eq_nil_iff]
        intro r hr hrp
        simp only [decide_eq_true_eq] at hrp
        exact h.1 (by
          rw [hx, ← hrp]
          exact List.mem_map_of_mem (fun x => x.path) hr)
      simp [ht]
    · next hx =>
      exact le_trans (nodup_filter_path_le_one t h.2 p) (by omega)

/-- With distinct paths, upserting an already-present path replaces the row:
the table does not grow. -/
def upsert_len_of_mem : ∀ (l : List FileRow) (r : FileRow),
    (l.map (fun x => x.path)).Nodup →
    r.path ∈ l.map (fun x => x.path) →
    (upsert l r).length = l.length
  | [], r, _, hm => absurd hm (by simp)
  | x :: t, r, h, hm => by
    rw [List.map_cons, List.nodup_cons] at h
    unfold upsert
    rw [List.filter_cons]
    by_cases hx : x.path = r.path
    · rw [if_neg (by simp [hx])]
      have ht : t.filter (fun y => decide (y.path ≠ r.path)) = t := by
        rw [List.filter_eq_self]
        intro y hy
        simp only [decide_eq_true_eq]
        intro hyp
        exact h.1 (by rw [hx, ← hyp]; exact List.mem_map_of_mem (fun x => x.path) hy)
      rw [ht]
      simp
    · rw [if_pos (by simp [hx])]
      have hm2 : r.path ∈ t.map (fun x => x.path) := by
        rcases (List.mem_cons).mp hm with h2 | h2
        · exact absurd h2.symm hx
        · exact h2
      have := upsert_len_of_mem t r h.2 hm2
      unfold upsert at this
      simp only [List.length_append, List.length_cons, List.length_nil] at this ⊢
      omega

/-- Two booleans agreeing as propositions are equal. -/
def bool_eq_of_iff {a b : Bool} (h : a = true ↔ b = true) : a = b := by
  cases a <;> cases b <;> simp_all

/-- The early-return chain of `aplica_filtros` is the conjunction of the six
per-predicate conditions, each vacuous when its predicate is inactive
(Python-falsy). -/
def aplica_filtros_iff (parse : List Char → Option ℚ) (T : List (List Char × List Char))
    (args : SearchArgs) (row : FileRow) :
    aplica_filtros parse T args row = true ↔
      ((strTruthy args.ext = true →
        row.ext = ((args.ext.getD []).dropWhile (fun ch => ch == '.')).map Char.toLower) ∧
       (strTruthy args.tag = true → args.tag.getD [] ∈ get_tags_for T row.path) ∧
       (intTruthy args.min_size = true → args.min_size.getD 0 ≤ row.size) ∧
       (intTruthy args.max_size = true → row.size ≤ args.max_size.getD 0) ∧
       (strTruthy args.after = true → afterParsed parse (args.after.getD []) ≤ row.mtime) ∧
       (strTruthy args.before = true →
         beforeRejects parse (args.before.getD []) row.mtime = false)) := by
  unfold aplica_filtros
  by_cases h1 : strTruthy args.ext ∧
      row.ext ≠ ((args.ext.getD []).dropWhile (fun ch => ch == '.')).map Char.toLower
  · rw [if_pos h1]
    simp only [Bool.false_eq_true, false_iff]
    intro hr
    exact h1.2 (hr.1 h1.1)
  · rw [if_neg h1]
    by_cases h2 : strTruthy args.tag ∧ args.tag.getD [] ∉ get_tags_for T row.path
    · rw [if_pos h2]
      simp only [Bool.false_eq_true, false_iff]
      intro hr
      exact h2.2 (hr.2.1 h2.1)
    · rw [if_neg h2]
      by_cases h3 : intTruthy args.min_size ∧ row.size < args.min_size.getD 0
      · rw [if_pos h3]
        simp only [Bool.false_eq_true, false_iff]
        intro hr
        have := hr.2.2.1 h3.1
        omega
      · rw [if_neg h3]
        by_cases h4 : intTruthy args.max_size ∧ args.max_size.getD 0 < row.size
        · rw [if_pos h4]
          simp only [Bool.false_eq_true, false_iff]
          intro hr
          have := hr.2.2.2.1 h4.1
          omega
        · rw [if_neg h4]
          by_cases h5 : strTruthy args.after ∧ row.mtime < afterParsed parse (args.after.getD [])
          · rw [if_pos h5]
            simp only [Bool.false_eq_true, false_iff]
            intro hr
            exact absurd h5.2 (not_lt.mpr (hr.2.2.2.2.1 h5.1))
          · rw [if_neg h5]
            by_cases h6 : strTruthy args.before ∧
                beforeRejects parse (args.before.getD []) row.mtime = true
            · rw [if_pos h6]
              simp only [Bool.false_eq_true, false_iff]
              intro hr
              have hf := hr.2.2.2.2.2 h6.1
              rw [h6.2] at hf
              exact absurd hf (by simp)
            · rw [if_neg h6]
              constructor
              · intro _
                refine ⟨fun he => ?_, fun ht => ?_, fun hm => ?_, fun hM => ?_,
                  fun ha => ?_, fun hb => ?_⟩
                · exact not_not.mp (fun hne => h1 ⟨he, hne⟩)
                · exact not_not.mp (fun hni => h2 ⟨ht, hni⟩)
                · exact not_lt.mp (fun hlt => h3 ⟨hm, hlt⟩)
                · exact not_lt.mp (fun hlt => h4 ⟨hM, hlt⟩)
                · exact not_lt.mp (fun hlt => h5 ⟨ha, hlt⟩)
                · exact Bool.eq_false_iff.mpr (fun htrue => h6 ⟨hb, htrue⟩)
              · intro _
                rfl

/-- A non-empty optional string is Python-truthy. -/
def strTruthy_some {s : List Char} (h : s ≠ []) : strTruthy (some s) = true := by
  unfold strTruthy
  simp [h]

/-! ## Ordering facts for `list_tags` -/

/-- In a list strictly sorted descending on the first component, any two
members in decreasing first-component order form a sublist. -/
def sublist_pair_of_sorted_desc : ∀ (l : List (List Char × Nat)),
    l.Pairwise (fun a b => b.1 < a.1) →
    ∀ x y, x ∈ l → y ∈ l → y.1 < x.1 → List.Sublist [x, y] l
  | [], _, x, _, hx, _, _ => absurd hx (by simp)
  | c :: t, hp, x, y, hx, hy, hlt => by
    rw [List.pairwise_cons] at hp
    by_cases hxc : x = c
    · subst hxc
      have hyt : y ∈ t := by
        rcases List.mem_cons.mp hy with h2 | h2
        · subst h2
          exact absurd hlt (lt_irrefl _)
        · exact h2
      exact (List.singleton_sublist.mpr hyt).cons₂ x
    · have hxt : x ∈ t := by
        rcases List.mem_cons.mp hx with h2 | h2
        · exact absurd h2 hxc
        · exact h2
      have hyt : y ∈ t := by
        rcases List.mem_cons.mp hy with h2 | h2
        · subst h2
          exact absurd (hp.1 x hxt) (not_lt.mpr (le_of_lt hlt))
        · exact h2
      exact (sublist_pair_of_sorted_desc t hp.2 x y hxt hyt hlt).cons c

/-- From stability (pairs in the "right" order remain sublists) and
distinct first components, ties are ordered by descending first component. -/
def pairwise_tie_desc : ∀ (l : List (List Char × Nat)),
    (l.map Prod.fst).Nodup →
    (∀ x y, x ∈ l → y ∈ l → x.2 = y.2 → y.1 < x.1 → List.Sublist [x, y] l) →
    l.Pairwise (fun x y => x.2 = y.2 → y.1 ≤ x.1)
  | [], _, _ => List.Pairwise.nil
  | z :: rest, hnd, H => by
    rw [List.map_cons, List.nodup_cons] at hnd
    rw [List.pairwise_cons]
    constructor
    · intro y hy heq
      by_contra hnot
      have hlt : z.1 < y.1 := lt_of_not_le hnot
      have hsub := H y z (List.mem_cons_of_mem z hy) (List.mem_cons_self z rest) heq.symm hlt
      have hzrest : z ∈ rest := by
        cases hsub with
        | cons _ h => exact h.subset (by simp)
        | cons₂ _ h => exact h.subset (by simp)
      exact hnd.1 (List.mem_map_of_mem Prod.fst hzrest)
    · apply pairwise_tie_desc rest hnd.2
      intro x y hx hy heq hlt
      have hsub := H x y (List.mem_cons_of_mem z hx) (List.mem_cons_of_mem z hy) heq hlt
      cases hsub with
      | cons _ h => exact h
      | cons₂ _ h => exact absurd (List.mem_map_of_mem Prod.fst hx) hnd.1

/-- With the UNIQUE constraint, `COUNT(*)` per tag is the number of distinct
paths holding the tag. -/
def countP_distinct_paths (T : List (List Char × List Char)) (hnd : T.Nodup)
    (t : List Char) :
    T.countP (fun r => decide (r.2 = t)) =
      ((T.filter (fun r => decide (r.2 = t))).map (fun r => r.1)).dedup.length := by
  have hsub : (T.filter (fun r => decide (r.2 = t))).Nodup :=
    hnd.sublist (List.filter_sublist T)
  have hmapnd : ((T.filter (fun r => decide (r.2 = t))).map (fun r => r.1)).Nodup := by
    apply List.Nodup.map_on _ hsub
    intro x hx y hy hxy
    have hx2 : x.2 = t := by simpa using (List.mem_filter.mp hx).2
    have hy2 : y.2 = t := by simpa using (List.mem_filter.mp hy).2
    exact Prod.ext hxy (hx2.trans hy2.symm)
  rw [hmapnd.dedup, List.length_map, List.countP_eq_length_filter]

/-- The ascending tag list fed to the final sort of `list_tags`, with its
count annotations. -/
def taggedCounts (T : List (List Char × List Char)) : List (List Char × Nat) :=
  ((T.map (fun r => r.2)).dedup.mergeSort (fun x y => decide (x ≤ y))).map
    (fun t => (t, T.countP (fun r => decide (r.2 = t))))

/-- `list_tags` is the count-descending stable sort of the reversed
`taggedCounts`. -/
def list_tags_eq (T : List (List Char × List Char)) :
    list_tags T = ((taggedCounts T).reverse).mergeSort (fun x y => decide (y.2 ≤ x.2)) := rfl

/-- `taggedCounts` is strictly ascending in its tag component. -/
def taggedCounts_strict (T : List (List Char × List Char)) :
    (taggedCounts T).Pairwise (fun a b => a.1 < b.1) := by
  have hnd : ((T.map (fun r => r.2)).dedup).Nodup := List.nodup_dedup _
  have hsorted : ((T.map (fun r => r.2)).dedup.mergeSort
      (fun x y => decide (x ≤ y))).Pairwise (fun x y => decide (x ≤ y)) :=
    List.sorted_mergeSort
      (by intro a b c h1 h2
          simp only [decide_eq_true_eq] at h1 h2 ⊢
          exact le_trans h1 h2)
      (by intro a b
          simp only [Bool.or_eq_true, decide_eq_true_eq]
          exact le_total a b)
      ((T.map (fun r => r.2)).dedup)
  have hnd2 : ((T.map (fun r => r.2)).dedup.mergeSort (fun x y => decide (x ≤ y))).Nodup :=
    (List.mergeSort_perm _ _).nodup_iff.mpr hnd
  have hstrict : ((T.map (fun r => r.2)).dedup.mergeSort
      (fun x y => decide (x ≤ y))).Pairwise (fun a b => a < b) := by
    refine (hsorted.and hnd2).imp ?_
    intro a b hab
    have h1 : a ≤ b := by simpa using hab.1
    exact lt_of_le_of_ne h1 hab.2
  unfold taggedCounts
  rw [List.pairwise_map]
  exact hstrict

/-! ## Concrete score evaluations (used by the counterexamples) -/

/-- `"ab"` and `"zq"` share no characters: no match. -/
def matchesTotal_ab_zq : matchesTotal "ab".data "zq".data = 0 := by
  unfold matchesTotal
  rw [matchesTotalAux.eq_def]
  split
  next i j k hm =>
    have hflm : findLongestMatch "ab".data "zq".data (popularB "zq".data) 0
        (List.length "ab".data) 0 (List.length "zq".data) = (0, 0, 0) := by decide
    rw [hflm] at hm
    obtain ⟨hi, hj, hk⟩ : (0 : Nat) = i ∧ (0 : Nat) = j ∧ (0 : Nat) = k := by
      simpa [Prod.ext_iff] using hm
    subst hk
    rw [dif_pos rfl]

/-- `score_nombre "ab" "zq" = 0`. -/
def score_ab_zq : score_nombre "ab".data "zq".data = 0 := by
  unfold score_nombre ratio
  rw [show "ab".data.map Char.toLower = "ab".data from by decide,
    show "zq".data.map Char.toLower = "zq".data from by decide,
    matchesTotal_ab_zq]
  unfold calculateRatio
  norm_num

/-- `"ab"` and `"axxxx"` match exactly on the single `'a'`. -/
def matchesTotal_ab_axxxx : matchesTotal "ab".data "axxxx".data = 1 := by
  unfold matchesTotal
  rw [matchesTotalAux.eq_def]
  split
  next i j k hm =>
    have hflm : findLongestMatch "ab".data "axxxx".data (popularB "axxxx".data) 0
        (List.length "ab".data) 0 (List.length "axxxx".data) = (0, 0, 1) := by decide
    rw [hflm] at hm
    obtain ⟨hi, hj, hk⟩ : (0 : Nat) = i ∧ (0 : Nat) = j ∧ (1 : Nat) = k := by
      simpa [Prod.ext_iff] using hm
    subst hi
    subst hj
    subst hk
    rw [dif_neg (by omega : ¬(1 : Nat) = 0), dif_neg (by omega : ¬((0:Nat) < 0 ∧ (0:Nat) < 0))]
    have hinner : matchesTotalAux "ab".data "axxxx".data (popularB "axxxx".data) (0 + 1)
        (List.length "ab".data) (0 + 1) (List.length "axxxx".data) = 0 := by
      rw [matchesTotalAux.eq_def]
      split
      next i2 j2 k2 hm2 =>
        have hflm2 : findLongestMatch "ab".data "axxxx".data (popularB "axxxx".data) (0 + 1)
            (List.length "ab".data) (0 + 1) (List.length "axxxx".data) = (1, 1, 0) := by decide
        rw [hflm2] at hm2
        obtain ⟨hi2, hj2, hk2⟩ : (1 : Nat) = i2 ∧ (1 : Nat) = j2 ∧ (0 : Nat) = k2 := by
          simpa [Prod.ext_iff] using hm2
        subst hk2
        rw [dif_pos rfl]
    rw [dif_pos (by decide : 0 + 1 < List.length "ab".data ∧ 0 + 1 < List.length "axxxx".data),
      hinner]

/-- `score_nombre "ab" "axxxx" = 2/7`. -/
def score_ab_axxxx : score_nombre "ab".data "axxxx".data = 2 / 7 := by
  unfold score_nombre ratio
  rw [show "ab".data.map Char.toLower = "ab".data from by decide,
    show "axxxx".data.map Char.toLower = "axxxx".data from by decide,
    matchesTotal_ab_axxxx]
  unfold calculateRatio
  norm_num

/-! ## Concrete fixtures for the counterexamples -/

/-- A parse function that fails on every input (it agrees with
`datetime.fromisoformat` on every string the fixtures ever pass to it). -/
def parse0 : List Char → Option ℚ := fun _ => none

/-- `search "ab" --threshold 0` with no filters, default limit. -/
def cexArgs0 : SearchArgs := ⟨none, none, none, none, none, none, 20, 0⟩

/-- A record wholly dissimilar from the query `"ab"`. -/
def cexRow0 : FileRow := ⟨"zq".data, "zq".data, [], 1, 0⟩

/-- A record with name `"axxxx"`: similarity `2/7` against `"ab"`. -/
def c10Row : FileRow := ⟨"zq".data, "axxxx".data, [], 1, 0⟩

/-- Composite score of `cexRow0` for query `"ab"` (no tags): `0`. -/
def compositeScore_cexRow0 : compositeScore [] "ab".data cexRow0 = 0 := by
  show max (max (score_nombre "ab".data "zq".data) (score_nombre "ab".data "zq".data))
    (if "ab".data ∈ get_tags_for [] "zq".data then 1 else 0) = 0
  rw [score_ab_zq]
  simp [get_tags_for]

/-- Composite score of `c10Row` for query `"ab"` (no tags): `2/7`. -/
def compositeScore_c10Row : compositeScore [] "ab".data c10Row = 2 / 7 := by
  show max (max (score_nombre "ab".data "axxxx".data) (score_nombre "ab".data "zq".data))
    (if "ab".data ∈ get_tags_for [] "zq".data then 1 else 0) = 2 / 7
  rw [score_ab_axxxx, score_ab_zq]
  simp [get_tags_for]
  norm_num [max_def]

/-- A search over a single record excluded by the threshold test returns no
results. -/
def buscar_single_excluded (parse : List Char → Option ℚ) (q : List Char)
    (args : SearchArgs) (row : FileRow) (T : List (List Char × List Char))
    (h : (aplica_filtros parse T args row &&
      decide (effectiveThreshold args.threshold ≤ compositeScore T q row)) = false) :
    buscar parse q args [row] T = [] := by
  unfold buscar
  simp only [List.filter_cons, List.filter_nil]
  rw [if_neg (by rw [h]; simp)]
  simp

/-- Filesystem on which no path exists. -/
def fsNone : FS := ⟨fun _ => false, fun _ => []⟩

/-- Filesystem with a single regular file with a successful `stat`. -/
def fsDemo : FS := ⟨fun _ => true, fun _ => [⟨"p".data, "n".data, [], some (1, 0)⟩]⟩

/-- The store produced by indexing `fsDemo` from an empty database. -/
def demoStore : Store := (indexar fsDemo "r".data ⟨[], []⟩).1

/-! ## The claims -/

/-- C1: for every record considered by search, the composite score equals the
maximum of `similarity(query, name)`, `similarity(query, path)` and the
tag indicator (`1.0` iff the query is exactly, case-sensitively, in the tag
set of the record's path); in particular a record whose tag set contains the
query gets composite score `1.0` regardless of name/path similarity. -/
theorem C1_composite_score (T : List (List Char × List Char)) (query : List Char)
    (row : FileRow) :
    compositeScore T query row =
      max (max (score_nombre query row.name) (score_nombre query row.path))
        (if query ∈ get_tags_for T row.path then 1 else 0) ∧
    (query ∈ get_tags_for T row.path → compositeScore T query row = 1) := by
  refine ⟨rfl, fun h => ?_⟩
  unfold compositeScore
  rw [if_pos h]
  exact max_eq_right
    (max_le (score_nombre_le_one query row.name) (score_nombre_le_one query row.path))

/-- Witness for C1 at a concrete store: the tag `"ab"` is attached to the
path of `cexRow0`, so the query `"ab"` scores `1`. -/
theorem C1_composite_score_witness :
    "ab".data ∈ get_tags_for [("zq".data, "ab".data)] cexRow0.path ∧
    compositeScore [("zq".data, "ab".data)] "ab".data cexRow0 = 1 :=
  ⟨by decide, (C1_composite_score [("zq".data, "ab".data)] "ab".data cexRow0).2 (by decide)⟩

/-- C3: `similarity` (i.e. `score_nombre`) always lies in `[0, 1]`, equals
`2 · matches / (len(query) + len(candidate))` over the lower-cased strings,
is `1` on identical strings, and is invariant under changing the case of
either argument. -/
theorem C3_similarity_scorer (q c x : List Char) :
    (0 ≤ score_nombre q c ∧ score_nombre q c ≤ 1) ∧
    (q.length + c.length ≠ 0 →
      score_nombre q c =
        2 * (matchesTotal (q.map Char.toLower) (c.map Char.toLower) : ℚ) /
          ((q.length + c.length : ℕ) : ℚ)) ∧
    score_nombre x x = 1 ∧
    score_nombre (q.map Char.toLower) c = score_nombre q c ∧
    score_nombre q (c.map Char.toLower) = score_nombre q c ∧
    score_nombre (q.map Char.toUpper) c = score_nombre q c ∧
    score_nombre q (c.map Char.toUpper) = score_nombre q c := by
  refine ⟨⟨score_nombre_nonneg q c, score_nombre_le_one q c⟩, ?_, score_nombre_self x,
    (score_nombre_lower q c).1, (score_nombre_lower q c).2,
    (score_nombre_upper q c).1, (score_nombre_upper q c).2⟩
  intro h
  unfold score_nombre ratio calculateRatio
  rw [List.length_map, List.length_map, if_pos h]

/-- Witness for C3 at `q = "ABC"`, `c = "abc"`, `x = "report"`. -/
theorem C3_similarity_scorer_witness :
    "ABC".data.length + "abc".data.length ≠ 0 ∧
    ((0 ≤ score_nombre "ABC".data "abc".data ∧ score_nombre "ABC".data "abc".data ≤ 1) ∧
    ("ABC".data.length + "abc".data.length ≠ 0 →
      score_nombre "ABC".data "abc".data =
        2 * (matchesTotal ("ABC".data.map Char.toLower) ("abc".data.map Char.toLower) : ℚ) /
          (("ABC".data.length + "abc".data.length : ℕ) : ℚ)) ∧
    score_nombre "report".data "report".data = 1 ∧
    score_nombre ("ABC".data.map Char.toLower) "abc".data =
      score_nombre "ABC".data "abc".data ∧
    score_nombre "ABC".data ("abc".data.map Char.toLower) =
      score_nombre "ABC".data "abc".data ∧
    score_nombre ("ABC".data.map Char.toUpper) "abc".data =
      score_nombre "ABC".data "abc".data ∧
    score_nombre "ABC".data ("abc".data.map Char.toUpper) =
      score_nombre "ABC".data "abc".data) :=
  ⟨by decide, C3_similarity_scorer "ABC".data "abc".data "report".data⟩

/-- C7: `tag_add` is idempotent — adding an existing pair changes nothing and
the pair ends up stored exactly once (given the UNIQUE invariant) — and
`tag_remove` of an absent pair is a successful no-op.  (Both model total
SQLite statements: no error path exists.) -/
theorem C7_tag_idempotence (T : List (List Char × List Char)) (p t : List Char) :
    tags_insert (tags_insert T p t) p t = tags_insert T p t ∧
    (List.count (p, t) T ≤ 1 → List.count (p, t) (tags_insert T p t) = 1) ∧
    ((p, t) ∉ T → tags_delete T p t = T) := by
  refine ⟨?_, ?_, ?_⟩
  · by_cases h : (p, t) ∈ T
    · have h1 : tags_insert T p t = T := by rw [tags_insert, if_pos h]
      rw [h1]
      exact h1
    · have h1 : tags_insert T p t = T ++ [(p, t)] := by rw [tags_insert, if_neg h]
      rw [h1, tags_insert, if_pos (by simp)]
  · intro hle
    by_cases h : (p, t) ∈ T
    · have h1 : tags_insert T p t = T := by rw [tags_insert, if_pos h]
      rw [h1]
      have hpos : 0 < List.count (p, t) T := List.count_pos_iff.mpr h
      omega
    · have h1 : tags_insert T p t = T ++ [(p, t)] := by rw [tags_insert, if_neg h]
      rw [h1, List.count_append, List.count_eq_zero.mpr h, List.count_singleton_self]
  · intro h
    unfold tags_delete
    rw [List.filter_eq_self]
    rintro ⟨r1, r2⟩ hr
    simp only [decide_eq_true_eq]
    rintro ⟨h1, h2⟩
    subst h1
    subst h2
    exact h hr

/-- Witness for C7 at the empty tag store. -/
theorem C7_tag_idempotence_witness :
    List.count ("a".data, "b".data) ([] : List (List Char × List Char)) ≤ 1 ∧
    ("a".data, "b".data) ∉ ([] : List (List Char × List Char)) ∧
    (tags_insert (tags_insert [] "a".data "b".data) "a".data "b".data =
      tags_insert [] "a".data "b".data ∧
    List.count ("a".data, "b".data) (tags_insert [] "a".data "b".data) = 1 ∧
    tags_delete [] "a".data "b".data = []) := by
  refine ⟨by decide, by decide, ?_, ?_, ?_⟩
  · exact (C7_tag_idempotence [] "a".data "b".data).1
  · exact (C7_tag_idempotence [] "a".data "b".data).2.1 (by decide)
  · exact (C7_tag_idempotence [] "a".data "b".data).2.2 (by decide)

/-- C8: indexing a non-existent root aborts before any upsert: the store is
returned unchanged together with the path-not-found message outcome (no
exception propagates — `indexar` is total). -/
theorem C8_missing_root (fs : FS) (root : List Char) (s : Store)
    (h : fs.pathExists root = false) :
    indexar fs root s = (s, IndexOutcome.pathNotFound) := by
  unfold indexar
  rw [h]
  rfl

/-- Witness for C8 on a filesystem with no paths. -/
theorem C8_missing_root_witness :
    fsNone.pathExists "r".data = false ∧
    indexar fsNone "r".data ⟨[], []⟩ = (⟨[], []⟩, IndexOutcome.pathNotFound) :=
  ⟨rfl, C8_missing_root fsNone "r".data ⟨[], []⟩ rfl⟩

/-- C4: at every reachable store state there is at most one metadata record
per distinct path, and upserting a record whose path already exists replaces
the existing row (the table does not grow). -/
theorem C4_unique_path (s : Store) (h : Reachable s) :
    (∀ p, (s.archivos.filter (fun r => decide (r.path = p))).length ≤ 1) ∧
    (∀ r : FileRow, r.path ∈ s.archivos.map (fun x => x.path) →
      (upsert s.archivos r).length = s.archivos.length) :=
  ⟨fun p => nodup_filter_path_le_one s.archivos (reachable_invariants s h).1 p,
   fun r hm => upsert_len_of_mem s.archivos r (reachable_invariants s h).1 hm⟩

/-- Witness for C4 at the store reached by indexing one file from scratch. -/
theorem C4_unique_path_witness :
    (∀ p, (demoStore.archivos.filter (fun r => decide (r.path = p))).length ≤ 1) ∧
    (∀ r : FileRow, r.path ∈ demoStore.archivos.map (fun x => x.path) →
      (upsert demoStore.archivos r).length = demoStore.archivos.length) :=
  C4_unique_path demoStore (Reachable.index fsDemo "r".data Reachable.init)

/-- C5 (amended): a record is admitted exactly when it satisfies every active
predicate (logical AND), with inclusive size bounds for every *non-zero*
bound; a size bound of exactly `0` is Python-falsy and deactivates that
predicate instead of being enforced. -/
theorem C5_size_bounds (parse : List Char → Option ℚ) (T : List (List Char × List Char))
    (args : SearchArgs) (row : FileRow) :
    aplica_filtros parse T args row = true ↔
      ((strTruthy args.ext = true →
        row.ext = ((args.ext.getD []).dropWhile (fun ch => ch == '.')).map Char.toLower) ∧
       (strTruthy args.tag = true → args.tag.getD [] ∈ get_tags_for T row.path) ∧
       (∀ m, args.min_size = some m → m ≠ 0 → m ≤ row.size) ∧
       (∀ m, args.max_size = some m → m ≠ 0 → row.size ≤ m) ∧
       (strTruthy args.after = true → afterParsed parse (args.after.getD []) ≤ row.mtime) ∧
       (strTruthy args.before = true →
         beforeRejects parse (args.before.getD []) row.mtime = false)) := by
  rw [aplica_filtros_iff]
  constructor
  · rintro ⟨h1, h2, h3, h4, h5, h6⟩
    refine ⟨h1, h2, ?_, ?_, h5, h6⟩
    · intro m hm hm0
      have ht : intTruthy args.min_size = true := by rw [hm]; simp [intTruthy, hm0]
      have h := h3 ht
      rw [hm] at h
      simpa using h
    · intro m hm hm0
      have ht : intTruthy args.max_size = true := by rw [hm]; simp [intTruthy, hm0]
      have h := h4 ht
      rw [hm] at h
      simpa using h
  · rintro ⟨h1, h2, h3, h4, h5, h6⟩
    refine ⟨h1, h2, ?_, ?_, h5, h6⟩
    · intro ht
      cases hopt : args.min_size with
      | none => rw [hopt] at ht; exact absurd ht (by simp [intTruthy])
      | some m =>
        rw [hopt] at ht
        have hm0 : m ≠ 0 := by simpa [intTruthy] using ht
        simpa using h3 m hopt hm0
    · intro ht
      cases hopt : args.max_size with
      | none => rw [hopt] at ht; exact absurd ht (by simp [intTruthy])
      | some m =>
        rw [hopt] at ht
        have hm0 : m ≠ 0 := by simpa [intTruthy] using ht
        simpa using h4 m hopt hm0

/-- `search --max-size 0` with no other predicates. -/
def c5Args : SearchArgs := ⟨none, none, none, some 0, none, none, 20, 2/5⟩

/-- A record of 5 bytes. -/
def c5Row : FileRow := ⟨"p".data, "n".data, [], 5, 0⟩

/-- Counterexample to C5 as stated: with the size-at-most bound `0` active,
a record of size `5` is admitted even though `5 ≤ 0` is false — a bound of
`0` is Python-falsy and the check is skipped. -/
theorem C5_zero_bound_cex :
    c5Args.max_size = some 0 ∧
    aplica_filtros parse0 [] c5Args c5Row = true ∧
    ¬(c5Row.size ≤ 0) :=
  ⟨rfl, by decide, by decide⟩

/-- Witness for C5 (amended) at the zero-bound fixture. -/
theorem C5_size_bounds_witness :
    aplica_filtros parse0 [] c5Args c5Row = true ↔
      ((strTruthy c5Args.ext = true →
        c5Row.ext = ((c5Args.ext.getD []).dropWhile (fun ch => ch == '.')).map Char.toLower) ∧
       (strTruthy c5Args.tag = true → c5Args.tag.getD [] ∈ get_tags_for [] c5Row.path) ∧
       (∀ m, c5Args.min_size = some m → m ≠ 0 → m ≤ c5Row.size) ∧
       (∀ m, c5Args.max_size = some m → m ≠ 0 → c5Row.size ≤ m) ∧
       (strTruthy c5Args.after = true →
         afterParsed parse0 (c5Args.after.getD []) ≤ c5Row.mtime) ∧
       (strTruthy c5Args.before = true →
         beforeRejects parse0 (c5Args.before.getD []) c5Row.mtime = false)) :=
  C5_size_bounds parse0 [] c5Args c5Row

/-- C6 (amended): an unparsable `--before` bound disables that bound (the
filter behaves as if no upper bound were given); an unparsable `--after`
bound is instead treated as the lower bound `0` (the epoch): it admits
exactly the records with non-negative modification time, rejecting
pre-epoch timestamps.  In both cases no error is surfaced. -/
theorem C6_unparsable_dates (parse : List Char → Option ℚ)
    (T : List (List Char × List Char)) (row : FileRow)
    (e tg : Option (List Char)) (mi ma : Option Int)
    (af bf : Option (List Char)) (lim : Nat) (thr : ℚ) (s : List Char)
    (hs : s ≠ []) (hp : parse s = none) :
    aplica_filtros parse T (SearchArgs.mk e tg mi ma af (some s) lim thr) row =
      aplica_filtros parse T (SearchArgs.mk e tg mi ma af none lim thr) row ∧
    aplica_filtros parse T (SearchArgs.mk e tg mi ma (some s) bf lim thr) row =
      (aplica_filtros parse T (SearchArgs.mk e tg mi ma none bf lim thr) row &&
        decide (0 ≤ row.mtime)) := by
  constructor
  · apply bool_eq_of_iff
    rw [aplica_filtros_iff, aplica_filtros_iff]
    constructor
    · rintro ⟨h1, h2, h3, h4, h5, _⟩
      refine ⟨h1, h2, h3, h4, h5, fun hb => ?_⟩
      exact absurd hb (by simp [strTruthy])
    · rintro ⟨h1, h2, h3, h4, h5, _⟩
      refine ⟨h1, h2, h3, h4, h5, fun _ => ?_⟩
      show beforeRejects parse ((some s).getD []) row.mtime = false
      unfold beforeRejects
      rw [show (some s).getD ([] : List Char) = s from rfl, hp]
  · apply bool_eq_of_iff
    rw [aplica_filtros_iff, Bool.and_eq_true, aplica_filtros_iff]
    constructor
    · rintro ⟨h1, h2, h3, h4, h5, h6⟩
      have h0 : 0 ≤ row.mtime := by
        have ha : afterParsed parse s ≤ row.mtime := h5 (strTruthy_some hs)
        unfold afterParsed at ha
        rw [hp] at ha
        simpa using ha
      refine ⟨⟨h1, h2, h3, h4, fun hb => absurd hb (by simp [strTruthy]), h6⟩,
        decide_eq_true h0⟩
    · rintro ⟨⟨h1, h2, h3, h4, _, h6⟩, hd⟩
      have h0 : 0 ≤ row.mtime := of_decide_eq_true hd
      refine ⟨h1, h2, h3, h4, fun _ => ?_, h6⟩
      show afterParsed parse ((some s).getD []) ≤ row.mtime
      unfold afterParsed
      rw [show (some s).getD ([] : List Char) = s from rfl, hp]
      simpa using h0

/-- `search --after garbage` with no other predicates. -/
def c6BadArgs : SearchArgs := ⟨none, none, none, none, some "garbage".data, none, 20, 2/5⟩

/-- The same search with no date predicate at all. -/
def c6NoneArgs : SearchArgs := ⟨none, none, none, none, none, none, 20, 2/5⟩

/-- A record modified before the epoch (`mtime = -1`). -/
def c6Row : FileRow := ⟨"p".data, "n".data, [], 1, -1⟩

/-- Counterexample to C6 as stated: with an unparsable `--after` bound the
code sets `t = 0`, so a pre-epoch record is rejected — not "admitted like
every record" as a −infinity lower bound would do (removing the predicate
admits it). -/
theorem C6_unparsable_after_cex :
    parse0 "garbage".data = none ∧
    aplica_filtros parse0 [] c6NoneArgs c6Row = true ∧
    aplica_filtros parse0 [] c6BadArgs c6Row = false :=
  ⟨rfl, by decide, by decide⟩

/-- Witness for C6 (amended) at the garbage-date fixture. -/
theorem C6_unparsable_dates_witness :
    "garbage".data ≠ [] ∧ parse0 "garbage".data = none ∧
    (aplica_filtros parse0 []
        (SearchArgs.mk none none none none none (some "garbage".data) 20 (2/5)) c6Row =
      aplica_filtros parse0 []
        (SearchArgs.mk none none none none none none 20 (2/5)) c6Row ∧
    aplica_filtros parse0 []
        (SearchArgs.mk none none none none (some "garbage".data) none 20 (2/5)) c6Row =
      (aplica_filtros parse0 []
        (SearchArgs.mk none none none none none none 20 (2/5)) c6Row &&
        decide (0 ≤ c6Row.mtime))) :=
  ⟨by decide, rfl,
    C6_unparsable_dates parse0 [] c6Row none none none none none none 20 (2/5)
      "garbage".data (by decide) rfl⟩

/-- C2 (amended): `buscar` returns at most `limit` hits, sorted by composite
score descending, and up to that truncation its results are exactly the
records passing the filter engine whose composite score reaches the
*effective* threshold (`args.threshold`, with an explicit `0` replaced by the
default `0.4`); the hits beyond the limit score no higher than any returned
hit. -/
theorem C2_search_results (parse : List Char → Option ℚ) (query : List Char)
    (args : SearchArgs) (rows : List FileRow) (T : List (List Char × List Char)) :
    (buscar parse query args rows T).length ≤ args.limit ∧
    (buscar parse query args rows T).Pairwise (fun x y => y.score ≤ x.score) ∧
    ∃ dropped : List SearchHit,
      (buscar parse query args rows T ++ dropped).Perm
        ((rows.filter (fun row => aplica_filtros parse T args row &&
          decide (effectiveThreshold args.threshold ≤ compositeScore T query row))).map
          (toHit T query)) ∧
      ∀ x ∈ buscar parse query args rows T, ∀ y ∈ dropped, y.score ≤ x.score := by
  have htrans : ∀ (a b c : SearchHit),
      (fun x y : SearchHit => decide (y.score ≤ x.score)) a b →
      (fun x y : SearchHit => decide (y.score ≤ x.score)) b c →
      (fun x y : SearchHit => decide (y.score ≤ x.score)) a c := by
    intro a b c h1 h2
    simp only [decide_eq_true_eq] at h1 h2 ⊢
    exact le_trans h2 h1
  have htotal : ∀ (a b : SearchHit),
      ((fun x y : SearchHit => decide (y.score ≤ x.score)) a b ||
       (fun x y : SearchHit => decide (y.score ≤ x.score)) b a) := by
    intro a b
    simp only [Bool.or_eq_true, decide_eq_true_eq]
    exact le_total b.score a.score
  set res := (rows.filter (fun row => aplica_filtros parse T args row &&
    decide (effectiveThreshold args.threshold ≤ compositeScore T query row))).map
    (toHit T query) with hres
  have hbus : buscar parse query args rows T =
      (res.mergeSort (fun x y => decide (y.score ≤ x.score))).take args.limit := rfl
  have hsorted : (res.mergeSort (fun x y => decide (y.score ≤ x.score))).Pairwise
      (fun x y : SearchHit => decide (y.score ≤ x.score)) :=
    List.sorted_mergeSort htrans htotal res
  have hsorted2 : (res.mergeSort (fun x y => decide (y.score ≤ x.score))).Pairwise
      (fun x y => y.score ≤ x.score) := hsorted.imp (fun h2 => of_decide_eq_true h2)
  refine ⟨?_, ?_, (res.mergeSort (fun x y => decide (y.score ≤ x.score))).drop args.limit,
    ?_, ?_⟩
  · rw [hbus, List.length_take]
    exact Nat.min_le_left _ _
  · rw [hbus]
    exact List.Pairwise.sublist (List.take_sublist _ _) hsorted2
  · rw [hbus, List.take_append_drop]
    exact List.mergeSort_perm res _
  · intro x hx y hy
    rw [hbus] at hx
    have hp := hsorted2
    rw [← List.take_append_drop args.limit
      (res.mergeSort (fun x y => decide (y.score ≤ x.score)))] at hp
    exact (List.pairwise_append.mp hp).2.2 x hx y hy

/-- Witness for C2 (amended) at a concrete one-record search. -/
theorem C2_search_results_witness :
    (buscar parse0 "ab".data c6NoneArgs [c10Row] []).length ≤ c6NoneArgs.limit ∧
    (buscar parse0 "ab".data c6NoneArgs [c10Row] []).Pairwise (fun x y => y.score ≤ x.score) ∧
    ∃ dropped : List SearchHit,
      (buscar parse0 "ab".data c6NoneArgs [c10Row] [] ++ dropped).Perm
        (([c10Row].filter (fun row => aplica_filtros parse0 [] c6NoneArgs row &&
          decide (effectiveThreshold c6NoneArgs.threshold ≤
            compositeScore [] "ab".data row))).map (toHit [] "ab".data)) ∧
      ∀ x ∈ buscar parse0 "ab".data c6NoneArgs [c10Row] [],
        ∀ y ∈ dropped, y.score ≤ x.score :=
  C2_search_results parse0 "ab".data c6NoneArgs [c10Row] []

/-- Counterexample to C2 as stated: with an explicit threshold of `0.0`, the
record `cexRow0` passes every filter and its composite score `0` is ≥ the
supplied threshold `0`, yet the search returns nothing — the code replaced
the threshold `0` by the default `0.4`. -/
theorem C2_zero_threshold_cex :
    cexArgs0.threshold = 0 ∧
    aplica_filtros parse0 [] cexArgs0 cexRow0 = true ∧
    cexArgs0.threshold ≤ compositeScore [] "ab".data cexRow0 ∧
    buscar parse0 "ab".data cexArgs0 [cexRow0] [] = [] := by
  refine ⟨rfl, by decide, ?_, ?_⟩
  · show (0 : ℚ) ≤ compositeScore [] "ab".data cexRow0
    rw [compositeScore_cexRow0]
  · apply buscar_single_excluded
    have he : effectiveThreshold cexArgs0.threshold = 2 / 5 := by
      norm_num [effectiveThreshold, cexArgs0]
    rw [compositeScore_cexRow0, he,
      decide_eq_false (by norm_num : ¬((2 : ℚ) / 5 ≤ 0)), Bool.and_false]

/-- C9 (amended): `list_tags` reports, for each stored tag, the number of
distinct paths holding it (by the UNIQUE constraint, `COUNT(*)` per group),
covering each distinct tag exactly once, ordered by count descending — but
ties between equal counts come out in *descending* tag order (the reverse of
the GROUP BY's ascending order), not ascending. -/
theorem C9_tag_counts (s : Store) (h : Reachable s) :
    ((list_tags s.tags).map Prod.fst).Perm ((s.tags.map (fun r => r.2)).dedup) ∧
    (∀ pr ∈ list_tags s.tags, pr.2 =
      ((s.tags.filter (fun r => decide (r.2 = pr.1))).map (fun r => r.1)).dedup.length) ∧
    (list_tags s.tags).Pairwise (fun x y => y.2 ≤ x.2) ∧
    (list_tags s.tags).Pairwise (fun x y => x.2 = y.2 → y.1 ≤ x.1) := by
  have hnd := (reachable_invariants s h).2
  have htrans : ∀ (a b c : List Char × Nat),
      (fun x y : List Char × Nat => decide (y.2 ≤ x.2)) a b →
      (fun x y : List Char × Nat => decide (y.2 ≤ x.2)) b c →
      (fun x y : List Char × Nat => decide (y.2 ≤ x.2)) a c := by
    intro a b c h1 h2
    simp only [decide_eq_true_eq] at h1 h2 ⊢
    omega
  have htotal : ∀ (a b : List Char × Nat),
      ((fun x y : List Char × Nat => decide (y.2 ≤ x.2)) a b ||
       (fun x y : List Char × Nat => decide (y.2 ≤ x.2)) b a) := by
    intro a b
    simp only [Bool.or_eq_true, decide_eq_true_eq]
    omega
  have hperm : (list_tags s.tags).Perm ((taggedCounts s.tags).reverse) := by
    rw [list_tags_eq]
    exact List.mergeSort_perm _ _
  have hperm2 : (list_tags s.tags).Perm (taggedCounts s.tags) :=
    hperm.trans (List.reverse_perm _)
  have hfst : ((taggedCounts s.tags).map Prod.fst) =
      (s.tags.map (fun r => r.2)).dedup.mergeSort (fun x y => decide (x ≤ y)) := by
    unfold taggedCounts
    rw [List.map_map]
    exact List.map_id'' (fun x => rfl) _
  have hfstperm : ((list_tags s.tags).map Prod.fst).Perm
      ((s.tags.map (fun r => r.2)).dedup) :=
    (hperm2.map Prod.fst).trans (by rw [hfst]; exact List.mergeSort_perm _ _)
  have hrevstrict : ((taggedCounts s.tags).reverse).Pairwise (fun a b => b.1 < a.1) := by
    rw [List.pairwise_reverse]
    exact taggedCounts_strict s.tags
  refine ⟨hfstperm, ?_, ?_, ?_⟩
  · intro pr hpr
    have hmem : pr ∈ taggedCounts s.tags := hperm2.mem_iff.mp hpr
    unfold taggedCounts at hmem
    rw [List.mem_map] at hmem
    obtain ⟨t, _, heq⟩ := hmem
    subst heq
    exact countP_distinct_paths s.tags hnd t
  · rw [list_tags_eq]
    exact (List.sorted_mergeSort htrans htotal _).imp (fun h2 => of_decide_eq_true h2)
  · apply pairwise_tie_desc
    · exact hfstperm.nodup_iff.mpr (List.nodup_dedup _)
    · intro x y hx hy heq hlt
      have hx2 : x ∈ (taggedCounts s.tags).reverse := hperm.mem_iff.mp hx
      have hy2 : y ∈ (taggedCounts s.tags).reverse := hperm.mem_iff.mp hy
      have hsub := sublist_pair_of_sorted_desc ((taggedCounts s.tags).reverse)
        hrevstrict x y hx2 hy2 hlt
      rw [list_tags_eq]
      exact List.pair_sublist_mergeSort htrans htotal
        (decide_eq_true (le_of_eq heq.symm)) hsub

/-- A reachable store with two tagged paths. -/
def tagStore : Store := tag_add (tag_add ⟨[], []⟩ "p1".data "t".data) "p2".data "u".data

/-- Witness for C9 at a concrete reachable tag store. -/
theorem C9_tag_counts_witness :
    ((list_tags tagStore.tags).map Prod.fst).Perm
      ((tagStore.tags.map (fun r => r.2)).dedup) ∧
    (∀ pr ∈ list_tags tagStore.tags, pr.2 =
      ((tagStore.tags.filter (fun r => decide (r.2 = pr.1))).map
        (fun r => r.1)).dedup.length) ∧
    (list_tags tagStore.tags).Pairwise (fun x y => y.2 ≤ x.2) ∧
    (list_tags tagStore.tags).Pairwise (fun x y => x.2 = y.2 → y.1 ≤ x.1) :=
  C9_tag_counts tagStore
    (Reachable.tagAdd "p2".data "u".data (Reachable.tagAdd "p1".data "t".data Reachable.init))

/-- Two paths holding distinct tags with equal counts. -/
def c9Tags : List (List Char × List Char) := [("p1".data, "a".data), ("p2".data, "b".data)]

/-- Counterexample to C9 as stated: with tags `"a"` and `"b"` each held by
one path, `list_tags` returns `"b"` before `"a"` — the equal-count tie is in
descending, not ascending, tag order. -/
theorem C9_tie_order_cex :
    list_tags c9Tags = [("b".data, 1), ("a".data, 1)] ∧
    ("a".data : List Char) < "b".data := by
  constructor
  · have htc : (taggedCounts c9Tags).reverse = [("b".data, 1), ("a".data, 1)] := by
      have hd : (c9Tags.map (fun r => r.2)).dedup = ["a".data, "b".data] := by decide
      have hs : (["a".data, "b".data] : List (List Char)).mergeSort
          (fun x y => decide (x ≤ y)) = ["a".data, "b".data] :=
        List.mergeSort_of_sorted (by decide)
      unfold taggedCounts
      rw [hd, hs]
      decide
    rw [list_tags_eq, htc]
    exact List.mergeSort_of_sorted (by decide)
  · decide

/-- C10: an explicit search threshold of exactly `0.0` is replaced by the
default `0.4`: the record `c10Row` passes all filters and scores `2/7`,
strictly between `0` and `0.4`, yet a search invoked with threshold `0.0`
excludes it. -/
theorem C10_zero_threshold_default :
    effectiveThreshold cexArgs0.threshold = 2 / 5 ∧
    aplica_filtros parse0 [] cexArgs0 c10Row = true ∧
    0 < compositeScore [] "ab".data c10Row ∧
    compositeScore [] "ab".data c10Row < 2 / 5 ∧
    buscar parse0 "ab".data cexArgs0 [c10Row] [] = [] := by
  refine ⟨by norm_num [effectiveThreshold, cexArgs0], by decide, ?_, ?_, ?_⟩
  · rw [compositeScore_c10Row]
    norm_num
  · rw [compositeScore_c10Row]
    norm_num
  · apply buscar_single_excluded
    have he : effectiveThreshold cexArgs0.threshold = 2 / 5 := by
      norm_num [effectiveThreshold, cexArgs0]
    rw [compositeScore_c10Row, he,
      decide_eq_false (by norm_num : ¬((2 : ℚ) / 5 ≤ 2 / 7)), Bool.and_false]

end Buscador
